import Mathlib

/-!
# A verification model of the gzran / zran random-access gzip reader

This file shallowly embeds the core of the repository's random-access gzip
reader: the flate (RFC 1951) decompressor of `zran/flate/inflate.go`, the
gzip (RFC 1952) framing of the `gzip` package, and the indexer / extractor
of the `gzran` package (`BuildIndex`, `addPoint`, `readBlock`,
`gzReadBlock`, `readSpan`, `inflateResume`, `getHeaderLen`, `Extract`).

Modelling conventions:
* bytes are `Nat` values below 256; the input stream is the list of bytes
  the underlying reader has not yet delivered;
* Go machine integers become `Nat` with explicit `% 2 ^ 32` (or `&&&`
  masks) exactly where Go truncates;
* Go slices of the history ring become `List Nat` with `List.take` /
  `List.drop`; in-place writes become functional updates; `len(f.Hist)`,
  the length of a fixed-size array type, is the constant `maxHist`;
* the Go step functions mutate the `Decompressor` and return nothing, so
  each step is a state transformer; unbounded loops take fuel and return
  `none` when the fuel runs out, which models only non-termination, never a
  wrong result;
* pointer identity of the active Huffman tables (`hl`, `hd` against the
  decoder's own `h1`, `h2`) is a tagged reference, exactly the information
  the Go code tests with pointer equality in `addPoint` / `inflateResume`.
-/

/-- `MaxHist` from inflate.go. -/
def maxHist : Nat := 32768

/-- `MaxLit` from inflate.go. -/
def maxLit : Nat := 286

/-- `MaxDist` from inflate.go. -/
def maxDist : Nat := 32

/-- `NumCodes` from inflate.go. -/
def numCodes : Nat := 19

/-- `maxCodeLen` from inflate.go. -/
def maxCodeLen : Nat := 16

/-- `span` from gzran.go: minimum uncompressed distance between access points. -/
def span : Nat := 1 <<< 20

/-- The error values that can reach the gzran driver: `io.EOF`,
`io.ErrUnexpectedEOF`, flate's `CorruptInputError` (carrying the input
offset), `InternalError`, `ReadError` (offset plus the underlying cause),
and gzip's `ErrChecksum` / `ErrHeader`. -/
inductive Err : Type
  | eof
  | unexpectedEOF
  | corrupt (off : Nat)
  | internal
  | readErr (off : Nat) (atEOF : Bool)
  | checksum
  | header
  deriving DecidableEq, Repr

/-- `flate.HuffmanDecoder`: minimum code length, the 512-entry direct chunk
table, the overflow link tables and the link mask. -/
structure HuffmanDecoder : Type where
  min : Nat
  chunks : List Nat
  links : List (List Nat)
  linkMask : Nat
  deriving DecidableEq, Repr

/-- The zero value of `flate.HuffmanDecoder` (all chunks zero, no links). -/
def emptyHuff : HuffmanDecoder :=
  { min := 0, chunks := List.replicate 512 0, links := [], linkMask := 0 }

/-- Modelled from the spec: the flate package's `reverseByte` table (its
source file is generated and absent from src/).  Spec section 3 describes it
as plain bit reversal of an 8-bit value ("the chunk index is bit-reversed",
"read 5 raw bits and reverse"). -/
def reverseByte (b : Nat) : Nat :=
  (List.range 8).foldl (fun acc i => acc ||| ((((b % 256) >>> i) &&& 1) <<< (7 - i))) 0

/-- 16-bit reversal used by `HuffmanDecoder.init`:
`int(reverseByte[x>>8]) | int(reverseByte[x&0xff])<<8`. -/
def rev16 (x : Nat) : Nat :=
  reverseByte (x >>> 8) ||| (reverseByte (x &&& 255) <<< 8)

/-- The table-stuffing loops of `HuffmanDecoder.init`
(`for off := reverse; off < bound; off += step`): write `val` at every
`step`-th slot starting at `off`.  The fuel is the slot count, always
sufficient since `step ≥ 1` in every call. -/
def stuffLoop (fuel : Nat) (tbl : List Nat) (off step val bound : Nat) : List Nat :=
  match fuel with
  | 0 => tbl
  | fuel + 1 =>
    if off < bound then stuffLoop fuel (tbl.set off val) (off + step) step val bound
    else tbl

/-- First phase of `HuffmanDecoder.init`: count codes per length and compute
the minimum and maximum nonzero code length. -/
def huffCounts (bits : List Nat) : List Nat × Nat × Nat :=
  bits.foldl
    (fun (acc : List Nat × Nat × Nat) n =>
      let (count, mn, mx) := acc
      if n = 0 then acc
      else (count.set n (count.getD n 0 + 1),
            if mn = 0 ∨ n < mn then n else mn,
            if n > mx then n else mx))
    (List.replicate maxCodeLen 0, 0, 0)

/-- State carried through the per-length loop of `HuffmanDecoder.init`:
running `code`, the `nextcode` array, the chunk table, the links and a
success flag. -/
structure InitLoopSt : Type where
  code : Nat
  nextcode : List Nat
  chunks : List Nat
  links : List (List Nat)
  ok : Bool
  deriving Repr

/-- The `for i := min; i <= max; i++` loop of `HuffmanDecoder.init`:
allocates the link tables when `i` passes `huffmanChunkBits+1` and fills
`nextcode` from the cumulative code counts. -/
def initLenLoop (count : List Nat) (linkBits : Nat) (mn mx : Nat) : InitLoopSt :=
  (List.range (mx + 1 - mn)).foldl
    (fun st k =>
      let i := mn + k
      if st.ok = false then st
      else
        let st :=
          if i = 10 then
            -- create link tables
            let link := st.code >>> 1
            if 512 < link then { st with ok := false }
            else
              let init0 : List (List Nat) := List.replicate (512 - link) []
              (List.range (512 - link)).foldl
                (fun st2 off =>
                  let j := link + off
                  let reverse := rev16 j >>> (16 - 9)
                  { st2 with
                    chunks := st2.chunks.set reverse ((off <<< 4) + i),
                    links := st2.links.set off (List.replicate (1 <<< linkBits) 0) })
                { st with links := init0 }
          else st
        if st.ok = false then st
        else
          let n := count.getD i 0
          { st with nextcode := st.nextcode.set i st.code,
                    code := (st.code + n) <<< 1 })
    { code := 0, nextcode := List.replicate maxCodeLen 0, chunks := List.replicate 512 0,
      links := [], ok := true }

/-- The final `for i, n := range bits` loop of `HuffmanDecoder.init`:
assign each symbol its canonical code (bit-reversed) and stuff the chunk /
link tables.  Returns `none` where the Go code returns `false`. -/
def initSymLoop (bits : List Nat) (numLinks linkStep0 : Nat) (st : InitLoopSt) :
    Option (List Nat × List (List Nat)) :=
  (bits.enum.foldl
    (fun (acc : Option InitLoopSt) (p : Nat × Nat) =>
      match acc with
      | none => none
      | some st =>
        let (i, n) := p
        if n = 0 then some st
        else
          let code := st.nextcode.getD n 0
          let st := { st with nextcode := st.nextcode.set n (code + 1) }
          let chunk := (i <<< 4) ||| n
          let reverse := rev16 code >>> (16 - n)
          if n ≤ 9 then
            some { st with chunks := stuffLoop 512 st.chunks reverse (1 <<< n) chunk 512 }
          else
            let value := st.chunks.getD (reverse &&& 511) 0 >>> 4
            if st.links.length ≤ value then none
            else
              let linktab := st.links.getD value []
              let reverse := reverse >>> 9
              let linktab := stuffLoop numLinks linktab reverse (1 <<< (n - 9)) chunk numLinks
              some { st with links := st.links.set value linktab })
    (some st)).map (fun st => (st.chunks, st.links))

/-- `flate.HuffmanDecoder.init`: build the decoding tables from a vector of
code lengths; `none` where the Go method returns `false`.  (`linkStep0` in
`initSymLoop` is unused padding kept out of the signature here.) -/
def huffInit (bits : List Nat) : Option HuffmanDecoder :=
  let (count, mn, mx) := huffCounts bits
  if mx = 0 then none
  else
    let linkBits := if 9 < mx then mx - 9 else 0
    let numLinks := if 9 < mx then 1 <<< linkBits else 0
    let linkMask := if 9 < mx then numLinks - 1 else 0
    let st := initLenLoop count linkBits mn mx
    if st.ok = false then none
    else
      match initSymLoop bits numLinks 0 st with
      | none => none
      | some (chunks, links) =>
        some { min := mn, chunks := chunks, links := links, linkMask := linkMask }

/-- Modelled from the spec: the code lengths of the RFC 1951 fixed
literal/length code (spec section 4.2, block type 1); the generated file
`fixedhuff.go` holding the precomputed table is absent from src/, and the
generator precomputes it with the same `init`. -/
def fixedLengths : List Nat :=
  List.replicate 144 8 ++ List.replicate 112 9 ++ List.replicate 24 7 ++ List.replicate 8 8

/-- Modelled from the spec: `fixedHuffmanDecoder`, the static table for
block type 1, built from the RFC 1951 fixed code lengths by `init`. -/
def fixedHuffmanDecoder : HuffmanDecoder :=
  (huffInit fixedLengths).getD emptyHuff

/-- The continuation recorded in `Decompressor.Step`, a function pointer in
Go (`NextBlock`, `huffmanBlock`, `copyHuff`, `copyData`). -/
inductive StepTag : Type
  | nextBlockTag
  | huffmanBlockTag
  | copyHuffTag
  | copyDataTag
  deriving DecidableEq, Repr

/-- The active-table pointers `Hl` / `Hd` of the decompressor: nil, aliased
to the decoder's own `H1` or `H2`, or an independent table (such as the
static fixed table or a detached clone). -/
inductive HuffRef : Type
  | noTbl
  | ownH1
  | ownH2
  | ext (t : HuffmanDecoder)
  deriving DecidableEq, Repr

/-- `flate.Decompressor`: the full decoder state of inflate.go, plus the
remaining bytes of the underlying reader (`input`). -/
structure Decomp : Type where
  input : List Nat
  roffset : Nat
  woffset : Nat
  b : Nat
  nb : Nat
  h1 : HuffmanDecoder
  h2 : HuffmanDecoder
  bits : List Nat
  codebits : List Nat
  hist : List Nat
  hp : Nat
  hw : Nat
  hfull : Bool
  buf : List Nat
  step : StepTag
  final : Bool
  err : Option Err
  toRead : List Nat
  hl : HuffRef
  hd : HuffRef
  copyLen : Nat
  copyDist : Nat
  deriving DecidableEq, Repr

/-- `flate.NewReader`: the zero decompressor over a byte stream, with fresh
`Bits`, `Codebits`, `Hist` and `Step = NextBlock`. -/
def newDecomp (input : List Nat) : Decomp :=
  { input := input, roffset := 0, woffset := 0, b := 0, nb := 0,
    h1 := emptyHuff, h2 := emptyHuff,
    bits := List.replicate (maxLit + maxDist) 0, codebits := List.replicate numCodes 0,
    hist := List.replicate maxHist 0, hp := 0, hw := 0, hfull := false,
    buf := [0, 0, 0, 0], step := .nextBlockTag, final := false, err := none,
    toRead := [], hl := .noTbl, hd := .noTbl, copyLen := 0, copyDist := 0 }

/-- `io.ReadFull` against the modelled stream: `(taken, rest, nr, err)`ise
with `err = io.EOF` when nothing was read and `io.ErrUnexpectedEOF` on a
short read. -/
def readFull (n : Nat) (inp : List Nat) : List Nat × List Nat × Nat × Option Err :=
  let taken := inp.take n
  let nr := taken.length
  (taken, inp.drop n, nr,
    if nr = n then none else if nr = 0 then some .eof else some .unexpectedEOF)

/-- Write `seg` into a list starting at position `i` (the model of reading
into a slice `l[i : i+len(seg)]`). -/
def setSeg (l : List Nat) (i : Nat) (seg : List Nat) : List Nat :=
  l.take i ++ seg ++ l.drop (i + seg.length)

/-- The `for f.Nb < n { f.moreBits() }` idiom: fetch bytes LSB-first into
the accumulator until at least `n` bits are available.  `moreBits` converts
`io.EOF` to `io.ErrUnexpectedEOF`, adds the byte at the top of `b`
(truncated to 32 bits exactly as the Go `uint32` shift) and advances
`roffset`. -/
def needBitsGo (fuel n : Nat) (f : Decomp) : Decomp × Option Err :=
  match fuel with
  | 0 => (f, none)
  | fuel + 1 =>
    if f.nb < n then
      match f.input with
      | [] => (f, some .unexpectedEOF)
      | c :: rest =>
        needBitsGo fuel n { f with input := rest, roffset := f.roffset + 1,
                                   b := f.b ||| ((c <<< f.nb) % (2 ^ 32)), nb := f.nb + 8 }
    else (f, none)

/-- `needBits n` runs the wait loop with fuel `n`: every iteration adds 8
bits, so at most `⌈n/8⌉ ≤ n` iterations ever run, and exhausted fuel
coincides with the loop's normal exit. -/
def needBits (n : Nat) (f : Decomp) : Decomp × Option Err :=
  needBitsGo n n f

/-- The symbol-decoding loop of `Decompressor.huffSym`: direct 9-bit chunk
lookup, overflow-link lookup for longer codes, `CorruptInputError` on an
empty link entry (which also sets the sticky error, as the Go method does).
One unit of fuel per outer loop iteration. -/
def huffSymLoop (fuel : Nat) (h : HuffmanDecoder) (n : Nat) (f : Decomp) :
    Option (Decomp × Except Err Nat) :=
  match fuel with
  | 0 => none
  | fuel + 1 =>
    match needBits n f with
    | (f, some e) => some (f, .error e)
    | (f, none) =>
      let chunk := h.chunks.getD (f.b &&& 511) 0
      let n1 := chunk &&& 15
      if 9 < n1 then
        let chunk := (h.links.getD (chunk >>> 4) []).getD ((f.b >>> 9) &&& h.linkMask) 0
        let n2 := chunk &&& 15
        if n2 = 0 then
          some ({ f with err := some (.corrupt f.roffset) }, .error (.corrupt f.roffset))
        else if n2 ≤ f.nb then
          some ({ f with b := f.b >>> n2, nb := f.nb - n2 }, .ok (chunk >>> 4))
        else huffSymLoop fuel h n2 f
      else
        if n1 ≤ f.nb then
          some ({ f with b := f.b >>> n1, nb := f.nb - n1 }, .ok (chunk >>> 4))
        else huffSymLoop fuel h n1 f

/-- `Decompressor.huffSym`, starting from the table's minimum code length. -/
def huffSym (fuel : Nat) (h : HuffmanDecoder) (f : Decomp) :
    Option (Decomp × Except Err Nat) :=
  huffSymLoop fuel h h.min f

/-- `Decompressor.flush`: expose `hist[hw:hp]` as `toRead`, advance
`woffset`, move the watermark, wrap the ring when full, and set the next
step. -/
def flushD (next : StepTag) (f : Decomp) : Decomp :=
  let t := (f.hist.drop f.hw).take (f.hp - f.hw)
  let f := { f with toRead := t, woffset := f.woffset + (f.hp - f.hw), hw := f.hp }
  if f.hp = maxHist then { f with hp := 0, hw := 0, hfull := true, step := next }
  else { f with step := next }

/-- Modelled from the spec: `forwardCopy` (flate's copy helper, absent from
src/), the strictly forward byte-by-byte overlapping copy required for
history back-references (spec section 4.2, "copies copy_len bytes from
position hp − copy_dist"). -/
def forwardCopy (mem : List Nat) (dst src : Nat) : Nat → List Nat
  | 0 => mem
  | n + 1 => forwardCopy (mem.set dst (mem.getD src 0)) (dst + 1) (src + 1) n

/-- The loop of `Decompressor.copyHist`: copy in runs bounded by the ring
end for both cursors, flush (suspending at `copyHuff`) when the ring fills;
reports whether it flushed.  Fuel per loop iteration. -/
def copyHistLoop (fuel : Nat) (p : Nat) (f : Decomp) : Option (Decomp × Bool) :=
  match fuel with
  | 0 => none
  | fuel + 1 =>
    if 0 < f.copyLen then
      let n := min f.copyLen (min (maxHist - f.hp) (maxHist - p))
      let f := { f with hist := forwardCopy f.hist f.hp p n, hp := f.hp + n,
                        copyLen := f.copyLen - n }
      let p := p + n
      if f.hp = maxHist then some (flushD .copyHuffTag f, true)
      else copyHistLoop fuel (if p = maxHist then 0 else p) f
    else some (f, false)

/-- `Decompressor.copyHist`: source cursor `hp - copyDist`, wrapped mod the
ring size when negative. -/
def copyHistFn (fuel : Nat) (f : Decomp) : Option (Decomp × Bool) :=
  copyHistLoop fuel
    (if f.copyDist ≤ f.hp then f.hp - f.copyDist else f.hp + maxHist - f.copyDist) f

/-- Dereference an active-table pointer (`f.Hl` / `f.Hd`) against the
decoder that owns it; `none` is the nil pointer. -/
def resolveRef (f : Decomp) : HuffRef → Option HuffmanDecoder
  | .noTbl => none
  | .ownH1 => some f.h1
  | .ownH2 => some f.h2
  | .ext t => some t

/-- The distance-decoding section of `Decompressor.huffmanBlock`: 5 raw
reversed bits when `hd` is nil, otherwise a Huffman symbol via `hd`; then
the RFC 1951 base/extra-bits expansion, with codes `≥ 30` corrupt.  The
error is returned for the loop to assign to the sticky `err` exactly as the
Go code does at each of these exits. -/
def decodeDist (fuel : Nat) (f : Decomp) : Option (Decomp × Except Err Nat) :=
  let raw : Option (Decomp × Except Err Nat) :=
    match resolveRef f f.hd with
    | none =>
      match needBits 5 f with
      | (f, some e) => some (f, .error e)
      | (f, none) =>
        some ({ f with b := f.b >>> 5, nb := f.nb - 5 }, .ok (reverseByte ((f.b &&& 31) <<< 3)))
    | some h => huffSym fuel h f
  match raw with
  | none => none
  | some (f, .error e) => some (f, .error e)
  | some (f, .ok dist) =>
    if dist < 4 then some (f, .ok (dist + 1))
    else if 30 ≤ dist then some (f, .error (.corrupt f.roffset))
    else
      let nb := (dist - 2) >>> 1
      let extra := (dist &&& 1) <<< nb
      match needBits nb f with
      | (f, some e) => some (f, .error e)
      | (f, none) =>
        let extra := extra ||| (f.b &&& ((1 <<< nb) - 1))
        some ({ f with b := f.b >>> nb, nb := f.nb - nb },
              .ok ((1 <<< (nb + 1)) + 1 + extra))

/-- The history-copy guard and dispatch at the end of a decoded
back-reference in `Decompressor.huffmanBlock`: distance beyond the ring is
an internal error, distance beyond the write cursor of a never-filled ring
is corrupt input at the current offset; otherwise record the copy and run
`copyHist`.  The boolean reports "return from the block loop". -/
def checkAndCopy (fuel : Nat) (length dist : Nat) (f : Decomp) : Option (Decomp × Bool) :=
  if maxHist < dist then some ({ f with err := some .internal }, true)
  else if f.hfull = false ∧ f.hp < dist then
    some ({ f with err := some (.corrupt f.roffset) }, true)
  else
    copyHistFn fuel { f with copyLen := length, copyDist := dist }

/-- The symbol loop of `Decompressor.huffmanBlock`: literals into the ring
(flushing when it fills), 256 ends the block, length codes expand per the
RFC table, then a distance and a history copy.  Fuel per symbol. -/
def huffmanBlockLoop (fuel : Nat) (f : Decomp) : Option Decomp :=
  match fuel with
  | 0 => none
  | fuel + 1 =>
    match resolveRef f f.hl with
    | none => none
    | some hlT =>
    match huffSym fuel hlT f with
    | none => none
    | some (f, .error e) => some { f with err := some e }
    | some (f, .ok v) =>
      if v < 256 then
        let f := { f with hist := f.hist.set f.hp v, hp := f.hp + 1 }
        if f.hp = maxHist then some (flushD .huffmanBlockTag f)
        else huffmanBlockLoop fuel f
      else if v = 256 then some { f with step := .nextBlockTag }
      else
        let ln : Nat × Nat :=
          if v < 265 then (v - 254, 0)
          else if v < 269 then (v * 2 - 519, 1)
          else if v < 273 then (v * 4 - 1057, 2)
          else if v < 277 then (v * 8 - 2149, 3)
          else if v < 281 then (v * 16 - 4365, 4)
          else if v < 285 then (v * 32 - 8861, 5)
          else (258, 0)
        let lengthExtra : Decomp × Option Err × Nat :=
          if 0 < ln.2 then
            match needBits ln.2 f with
            | (f, some e) => (f, some e, 0)
            | (f, none) =>
              ({ f with b := f.b >>> ln.2, nb := f.nb - ln.2 }, none,
               ln.1 + (f.b &&& ((1 <<< ln.2) - 1)))
          else (f, none, ln.1)
        match lengthExtra with
        | (f, some e, _) => some { f with err := some e }
        | (f, none, length) =>
          match decodeDist fuel f with
          | none => none
          | some (f, .error e) => some { f with err := some e }
          | some (f, .ok dist) =>
            match checkAndCopy fuel length dist f with
            | none => none
            | some (f, true) => some f
            | some (f, false) => huffmanBlockLoop fuel f

/-- `Decompressor.copyHuff`: finish the suspended history copy, then fall
back into the Huffman block loop. -/
def copyHuffFn (fuel : Nat) (f : Decomp) : Option Decomp :=
  match copyHistFn fuel f with
  | none => none
  | some (f, true) => some f
  | some (f, false) => huffmanBlockLoop fuel f

/-- The loop of `Decompressor.copyData`: read stored-block bytes straight
into the ring, flushing (and parking the remaining count in `copyLen`) when
it fills; read errors become `ReadError` at the post-read offset. -/
def copyDataLoop (fuel : Nat) (n : Nat) (f : Decomp) : Option Decomp :=
  match fuel with
  | 0 => none
  | fuel + 1 =>
    if 0 < n then
      let m := min (maxHist - f.hp) n
      let r := readFull m f.input
      let f := { f with hist := setSeg f.hist f.hp r.1, input := r.2.1,
                        roffset := f.roffset + r.2.2.1 }
      match r.2.2.2 with
      | some e => some { f with err := some (.readErr f.roffset (decide (e = .eof))) }
      | none =>
        let n := n - r.2.2.1
        let f := { f with hp := f.hp + r.2.2.1 }
        if f.hp = maxHist then some (flushD .copyDataTag { f with copyLen := n })
        else copyDataLoop fuel n f
    else some { f with step := .nextBlockTag }

/-- `Decompressor.dataBlock`: byte-align, read the 4-byte `(len, ~len)`
pair into the scratch buffer, reject a non-complementary pair as corrupt,
flush on a zero-length sync block, otherwise copy `len` stored bytes. -/
def dataBlockFn (fuel : Nat) (f : Decomp) : Option Decomp :=
  let f := { f with nb := 0, b := 0 }
  let r := readFull 4 f.input
  let f := { f with buf := r.1 ++ f.buf.drop r.2.2.1, input := r.2.1,
                    roffset := f.roffset + r.2.2.1 }
  match r.2.2.2 with
  | some e => some { f with err := some (.readErr f.roffset (decide (e = .eof))) }
  | none =>
    let n := f.buf.getD 0 0 ||| (f.buf.getD 1 0 <<< 8)
    let nn := f.buf.getD 2 0 ||| (f.buf.getD 3 0 <<< 8)
    if nn ≠ 65535 - n then some { f with err := some (.corrupt f.roffset) }
    else if n = 0 then some (flushD .nextBlockTag f)
    else copyDataLoop fuel n { f with copyLen := n }

/-- `codeOrder` from inflate.go: the permutation of the code-length code
lengths in a dynamic block header. -/
def codeOrder : List Nat := [16, 17, 18, 0, 8, 7, 9, 6, 10, 5, 11, 4, 12, 3, 13, 2, 14, 1, 15]

/-- The `(HCLEN+4)*3`-bit loop of `Decompressor.readHuffman`: read each
3-bit code length into `codebits` at the permuted position. -/
def readCodeLens (fuel k nclen : Nat) (f : Decomp) : Decomp × Option Err :=
  match fuel with
  | 0 => (f, none)
  | fuel + 1 =>
    if k < nclen then
      match needBits 3 f with
      | (f, some e) => (f, some e)
      | (f, none) =>
        readCodeLens fuel (k + 1) nclen
          { f with codebits := f.codebits.set (codeOrder.getD k 0) (f.b &&& 7),
                   b := f.b >>> 3, nb := f.nb - 3 }
    else (f, none)

/-- The literal/distance code-length unpacking loop of
`Decompressor.readHuffman`: lengths below 16 are literal, 16 repeats the
previous length 3–6 times, 17 and 18 insert runs of zeros; over-long runs
and a leading 16 are corrupt, any other symbol is an internal error. -/
def fillBitsLoop (fuel : Nat) (i n : Nat) (f : Decomp) : Option (Decomp × Option Err) :=
  match fuel with
  | 0 => none
  | fuel + 1 =>
    if i < n then
      match huffSym fuel f.h1 f with
      | none => none
      | some (f, .error e) => some (f, some e)
      | some (f, .ok x) =>
        if x < 16 then fillBitsLoop fuel (i + 1) n { f with bits := f.bits.set i x }
        else
          let rb : Except Err (Nat × Nat × Nat) :=
            if x = 16 then
              (if i = 0 then .error (.corrupt f.roffset)
               else .ok (3, 2, f.bits.getD (i - 1) 0))
            else if x = 17 then .ok (3, 3, 0)
            else if x = 18 then .ok (11, 7, 0)
            else .error .internal
          match rb with
          | .error e => some (f, some e)
          | .ok (rep0, nbits, bval) =>
            match needBits nbits f with
            | (f, some e) => some (f, some e)
            | (f, none) =>
              let rep := rep0 + (f.b &&& ((1 <<< nbits) - 1))
              let f := { f with b := f.b >>> nbits, nb := f.nb - nbits }
              if n < i + rep then some (f, some (.corrupt f.roffset))
              else
                fillBitsLoop fuel (i + rep) n
                  { f with bits := setSeg f.bits i (List.replicate rep bval) }
    else some (f, none)

/-- `Decompressor.readHuffman`: parse a dynamic-block header — HLIT, HDIST,
HCLEN, the code-length code, the unpacked literal and distance code lengths
— and build `h1` and `h2`.  A failed table build leaves the table fields as
they were (the Go `init` leaves partially written tables, but an error here
stops decoding before anything reads them). -/
def readHuffmanFn (fuel : Nat) (f : Decomp) : Option (Decomp × Option Err) :=
  match needBits 14 f with
  | (f, some e) => some (f, some e)
  | (f, none) =>
    let nlit := (f.b &&& 31) + 257
    if maxLit < nlit then some (f, some (.corrupt f.roffset))
    else
      let b := f.b >>> 5
      let ndist := (b &&& 31) + 1
      let b := b >>> 5
      let nclen := (b &&& 15) + 4
      let f := { f with b := b >>> 4, nb := f.nb - 14 }
      match readCodeLens nclen 0 nclen f with
      | (f, some e) => some (f, some e)
      | (f, none) =>
        let cb := (List.range (numCodes - nclen)).foldl
          (fun cb j => cb.set (codeOrder.getD (nclen + j) 0) 0) f.codebits
        let f := { f with codebits := cb }
        match huffInit f.codebits with
        | none => some (f, some (.corrupt f.roffset))
        | some hMeta =>
          let f := { f with h1 := hMeta }
          match fillBitsLoop fuel 0 (nlit + ndist) f with
          | none => none
          | some (f, some e) => some (f, some e)
          | some (f, none) =>
            match huffInit (f.bits.take nlit) with
            | none => some (f, some (.corrupt f.roffset))
            | some h1b =>
              let f := { f with h1 := h1b }
              match huffInit ((f.bits.drop nlit).take ndist) with
              | none => some (f, some (.corrupt f.roffset))
              | some h2b => some ({ f with h2 := h2b }, none)

/-- `Decompressor.NextBlock`: at a final block with a drained ring report
EOF (flushing any remainder first); otherwise consume the 3-bit block
header and dispatch on the block type — stored, fixed Huffman (aliasing the
static table, nil distance table), dynamic Huffman (aliasing the decoder's
own tables), or corrupt. -/
def nextBlockFn (fuel : Nat) (f : Decomp) : Option Decomp :=
  if f.final then
    if f.hw ≠ f.hp then some (flushD .nextBlockTag f)
    else some { f with err := some .eof }
  else
    match needBits 3 f with
    | (f, some e) => some { f with err := some e }
    | (f, none) =>
      let fin := f.b &&& 1 = 1
      let b1 := f.b >>> 1
      let typ := b1 &&& 3
      let f := { f with final := fin, b := b1 >>> 2, nb := f.nb - 3 }
      if typ = 0 then dataBlockFn fuel f
      else if typ = 1 then
        huffmanBlockLoop fuel { f with hl := .ext fixedHuffmanDecoder, hd := .noTbl }
      else if typ = 2 then
        match readHuffmanFn fuel f with
        | none => none
        | some (f, some e) => some { f with err := some e }
        | some (f, none) =>
          huffmanBlockLoop fuel { f with hl := .ownH1, hd := .ownH2 }
      else some { f with err := some (.corrupt f.roffset) }

/-- `f.Step(f)`: dispatch the stored continuation. -/
def runStep (fuel : Nat) (f : Decomp) : Option Decomp :=
  match f.step with
  | .nextBlockTag => nextBlockFn fuel f
  | .huffmanBlockTag => huffmanBlockLoop fuel f
  | .copyHuffTag => copyHuffFn fuel f
  | .copyDataTag => copyDataLoop fuel f.copyLen f

/-- One byte of the IEEE CRC-32 (hash/crc32): xor in the byte, then eight
conditional shift-xor rounds with the reversed polynomial. -/
def crc32Byte (crc b : Nat) : Nat :=
  (List.range 8).foldl
    (fun c _ => if c % 2 = 1 then (c >>> 1) ^^^ 0xEDB88320 else c >>> 1)
    (crc ^^^ b)

/-- `digest.Write(bs)` for a `crc32.NewIEEE` digest whose current `Sum32`
is `crc`: invert, run the byte rounds, invert back. -/
def crc32Append (crc : Nat) (bs : List Nat) : Nat :=
  (bs.foldl crc32Byte (crc ^^^ 0xFFFFFFFF)) ^^^ 0xFFFFFFFF

/-- `gzip.Get4`: little-endian 32-bit decode. -/
def get4 (p : List Nat) : Nat :=
  p.getD 0 0 ||| (p.getD 1 0 <<< 8) ||| (p.getD 2 0 <<< 16) ||| (p.getD 3 0 <<< 24)

/-- Little-endian 32-bit encode, for building gzip trailers. -/
def le32 (x : Nat) : List Nat :=
  [x &&& 255, (x >>> 8) &&& 255, (x >>> 16) &&& 255, (x >>> 24) &&& 255]

/-- The Latin-1 to UTF-8 re-encoding `gzip.readString` performs when any
byte of a header string exceeds 0x7f (`string(s)` over the runes). -/
def latin1Utf8 (bs : List Nat) : List Nat :=
  bs.bind (fun b => if b < 128 then [b] else [192 ||| (b >>> 6), 128 ||| (b &&& 63)])

/-- `gzip.readString`: read bytes to the NUL terminator (at most 512,
`ErrHeader` beyond), re-encoding to UTF-8 when a byte above 0x7f was
seen; returns the string's bytes and the rest of the stream. -/
def readGzString (i : Nat) (raw : List Nat) (needconv : Bool) :
    List Nat → Except Err (List Nat × List Nat)
  | [] => if 512 ≤ i then .error .header else .error .eof
  | c :: rest =>
    if 512 ≤ i then .error .header
    else
      let needconv := needconv || decide (127 < c)
      if c = 0 then .ok (if needconv then latin1Utf8 raw else raw, rest)
      else readGzString (i + 1) (raw ++ [c]) needconv rest

/-- The parsed gzip header fields the gzran code consults. -/
structure GzHdr : Type where
  flg : Nat
  name : List Nat
  comment : List Nat
  extra : List Nat
  deriving DecidableEq, Repr

/-- `gzip.Reader.readHeader` (save = true): magic and method check, FEXTRA,
FNAME, FCOMMENT and FHCRC per the flag byte; returns the header fields, the
number of bytes consumed and the rest of the stream.  The FHCRC check is
against the CRC of the fixed 10 header bytes, exactly as the source's
digest writes do. -/
def parseHeader (file : List Nat) : Except Err (GzHdr × Nat × List Nat) :=
  let r := readFull 10 file
  match r.2.2.2 with
  | some e => .error e
  | none =>
    let buf := r.1
    if buf.getD 0 0 ≠ 31 ∨ buf.getD 1 0 ≠ 139 ∨ buf.getD 2 0 ≠ 8 then .error .header
    else
      let flg := buf.getD 3 0
      let hdrDigest := crc32Append 0 buf
      let inp := r.2.1
      let extraStep : Except Err (List Nat × Nat × List Nat) :=
        if flg &&& 4 ≠ 0 then
          let r2 := readFull 2 inp
          match r2.2.2.2 with
          | some e => .error e
          | none =>
            let xlen := r2.1.getD 0 0 ||| (r2.1.getD 1 0 <<< 8)
            let r3 := readFull xlen r2.2.1
            match r3.2.2.2 with
            | some e => .error e
            | none => .ok (r3.1, 2 + xlen, r3.2.1)
        else .ok ([], 0, inp)
      match extraStep with
      | .error e => .error e
      | .ok (extra, extraLen, inp) =>
        let nameStep : Except Err (List Nat × Nat × List Nat) :=
          if flg &&& 8 ≠ 0 then
            match readGzString 0 [] false inp with
            | .error e => .error e
            | .ok (s, rest) => .ok (s, inp.length - rest.length, rest)
          else .ok ([], 0, inp)
        match nameStep with
        | .error e => .error e
        | .ok (name, nameLen, inp) =>
          let commentStep : Except Err (List Nat × Nat × List Nat) :=
            if flg &&& 16 ≠ 0 then
              match readGzString 0 [] false inp with
              | .error e => .error e
              | .ok (s, rest) => .ok (s, inp.length - rest.length, rest)
            else .ok ([], 0, inp)
          match commentStep with
          | .error e => .error e
          | .ok (comment, commentLen, inp) =>
            let crcStep : Except Err (Nat × List Nat) :=
              if flg &&& 2 ≠ 0 then
                let r4 := readFull 2 inp
                match r4.2.2.2 with
                | some e => .error e
                | none =>
                  let n := r4.1.getD 0 0 ||| (r4.1.getD 1 0 <<< 8)
                  if n ≠ (hdrDigest &&& 0xFFFF) then .error .header
                  else .ok (2, r4.2.1)
              else .ok (0, inp)
            match crcStep with
            | .error e => .error e
            | .ok (crcLen, inp) =>
              .ok ({ flg := flg, name := name, comment := comment, extra := extra },
                   10 + extraLen + nameLen + commentLen + crcLen, inp)

/-- `gzip.Reader` as the gzran driver uses it: the inner flate decoder
(owning the shared underlying stream), the running uncompressed digest and
size, the sticky error and the saved header fields. -/
structure GzReader : Type where
  flate : Decomp
  digest : Nat
  size : Nat
  err : Option Err
  hdr : GzHdr
  deriving DecidableEq, Repr

/-- `gzip.NewReader`: parse the header and attach a fresh flate decoder to
the rest of the stream. -/
def gzNewReader (file : List Nat) : Except Err GzReader :=
  match parseHeader file with
  | .error e => .error e
  | .ok (hdr, _, rest) =>
    .ok { flate := newDecomp rest, digest := 0, size := 0, err := none, hdr := hdr }

/-- gzran's `readBlock` (the same code as `flate.Decompressor.ReadBlock`):
loop the decoder until `toRead` is nonempty, then return a copy of all of
it, leaving `toRead` empty; a pending error with nothing to read returns
the error with an empty slice. -/
def readBlock (fuel : Nat) (f : Decomp) : Option (Decomp × List Nat × Option Err) :=
  match fuel with
  | 0 => none
  | fuel + 1 =>
    if f.toRead ≠ [] then some ({ f with toRead := [] }, f.toRead, none)
    else
      match f.err with
      | some e => some (f, [], some e)
      | none =>
        match runStep fuel f with
        | none => none
        | some f => readBlock fuel f

/-- gzran's `gzReadBlock`: pull one whole flush unit from the flate
decoder, feed the digest and size, and at the end of the deflate stream
read and validate the 8-byte trailer (checksum error on mismatch); a
matching trailer reports EOF without touching the sticky error, and
multistream concatenation is never entered. -/
def gzReadBlock (fuel : Nat) (z : GzReader) : Option (GzReader × List Nat × Option Err) :=
  match z.err with
  | some e => some (z, [], some e)
  | none =>
    match readBlock fuel z.flate with
    | none => none
    | some (f, b, e) =>
      let z := { z with flate := f, digest := crc32Append z.digest b,
                        size := (z.size + b.length) % 2 ^ 32 }
      if b.length ≠ 0 ∨ e ≠ some .eof then some ({ z with err := e }, b, e)
      else
        let r := readFull 8 z.flate.input
        let z := { z with flate := { z.flate with input := r.2.1 } }
        match r.2.2.2 with
        | some e2 => some ({ z with err := some e2 }, [], some e2)
        | none =>
          let crc32v := get4 r.1
          let isize := get4 (r.1.drop 4)
          if z.digest ≠ crc32v ∨ isize ≠ z.size then
            some ({ z with err := some .checksum }, [], some .checksum)
          else some (z, [], some .eof)

/-- gzran's `readSpan`: accumulate flush units until at least `span` bytes
have been gathered; an error hands back the failing unit and the error. -/
def readSpan (fuel : Nat) (z : GzReader) (buf : List Nat) :
    Option (GzReader × List Nat × Option Err) :=
  match fuel with
  | 0 => none
  | fuel + 1 =>
    if buf.length < span then
      match gzReadBlock fuel z with
      | none => none
      | some (z, block, some e) => some (z, block, some e)
      | some (z, block, none) => readSpan fuel z (buf ++ block)
    else some (z, buf, none)

/-- gzran's `point`: the snapshot of the decompressor state an access
point records. -/
structure Point : Type where
  roffset : Nat
  woffset : Nat
  b : Nat
  nb : Nat
  h1 : HuffmanDecoder
  h2 : HuffmanDecoder
  bits : List Nat
  codebits : List Nat
  hist : List Nat
  hp : Nat
  hw : Nat
  hfull : Bool
  buf : List Nat
  step : StepTag
  final : Bool
  err : Option Err
  hl : HuffRef
  hd : HuffRef
  copyLen : Nat
  copyDist : Nat
  deriving DecidableEq, Repr

/-- The snapshot `Index.addPoint` takes: a deep copy of every field, with
the pointer tests `r.Hl == &r.H1` / `r.Hd == &r.H2` deciding whether the
point's `hl` / `hd` alias the point's own tables or get a detached clone
of whatever table the pointer addressed. -/
def mkPoint (f : Decomp) : Point :=
  { roffset := f.roffset, woffset := f.woffset, b := f.b, nb := f.nb,
    h1 := f.h1, h2 := f.h2, bits := f.bits, codebits := f.codebits,
    hist := f.hist, hp := f.hp, hw := f.hw, hfull := f.hfull, buf := f.buf,
    step := f.step, final := f.final, err := f.err,
    hl := match f.hl with
          | .noTbl => .noTbl
          | .ownH1 => .ownH1
          | .ownH2 => .ext f.h2
          | .ext t => .ext t,
    hd := match f.hd with
          | .noTbl => .noTbl
          | .ownH2 => .ownH2
          | .ownH1 => .ext f.h1
          | .ext t => .ext t,
    copyLen := f.copyLen, copyDist := f.copyDist }

/-- gzran's `inflateResume`: rebuild a decompressor from a point over a
freshly positioned reader, re-establishing the `hl` / `hd` aliases against
the restored decoder's own tables via the pointer tests
`pt.hl == &pt.h1` / `pt.hd == &pt.h2`. -/
def inflateResume (pt : Point) (input : List Nat) : Decomp :=
  { input := input, roffset := pt.roffset, woffset := pt.woffset, b := pt.b, nb := pt.nb,
    h1 := pt.h1, h2 := pt.h2, bits := pt.bits, codebits := pt.codebits, hist := pt.hist,
    hp := pt.hp, hw := pt.hw, hfull := pt.hfull, buf := pt.buf, step := pt.step,
    final := pt.final, err := pt.err, toRead := [],
    hl := match pt.hl with
          | .noTbl => .noTbl
          | .ownH1 => .ownH1
          | .ownH2 => .ext pt.h2
          | .ext t => .ext t,
    hd := match pt.hd with
          | .noTbl => .noTbl
          | .ownH2 => .ownH2
          | .ownH1 => .ext pt.h1
          | .ext t => .ext t,
    copyLen := pt.copyLen, copyDist := pt.copyDist }

/-- The driver loop of `BuildIndex`: read a span, stop (returning the index
built so far) at EOF, fail on any other error, otherwise record an access
point and continue. -/
def buildLoop (fuel : Nat) (z : GzReader) (idx : List Point) (totalRead : Nat) :
    Option (Except Err (List Point)) :=
  match fuel with
  | 0 => none
  | fuel + 1 =>
    match readSpan fuel z [] with
    | none => none
    | some (_, _, some .eof) => some (.ok idx)
    | some (_, _, some e) => some (.error e)
    | some (z, b, none) => buildLoop fuel z (idx ++ [mkPoint z.flate]) (totalRead + b.length)

/-- gzran's `BuildIndex`: parse the header, record the point before the
first block, then record a point about every span of uncompressed data. -/
def buildIndex (file : List Nat) (fuel : Nat) : Option (Except Err (List Point)) :=
  match gzNewReader file with
  | .error e => some (.error e)
  | .ok z => buildLoop fuel z [mkPoint z.flate] 0

/-- gzran's `getHeaderLen`: 10 fixed bytes plus the flagged FNAME (length
of the *parsed string* plus NUL), FEXTRA (length plus XLEN), FCOMMENT and
FHCRC contributions. -/
def getHeaderLen (hdr : GzHdr) : Nat :=
  let l := 10
  let l := if hdr.flg &&& 8 ≠ 0 then l + hdr.name.length + 1 else l
  let l := if hdr.flg &&& 4 ≠ 0 then l + hdr.extra.length + 2 else l
  let l := if hdr.flg &&& 16 ≠ 0 then l + hdr.comment.length + 1 else l
  if hdr.flg &&& 2 ≠ 0 then l + 2 else l

/-- The access-point search in `Extract`: scan the index backward and take
the first point whose `woffset` does not exceed the requested offset. -/
def locate (pts : List Point) (off : Int) : Option Point :=
  pts.reverse.find? (fun p => (p.woffset : Int) ≤ off)

/-- `flate.Decompressor.Read`: copy from `toRead` into a window of the
given capacity, or report the sticky error, stepping the decoder until one
of the two happens. -/
def flateRead (fuel : Nat) (cap : Nat) (f : Decomp) :
    Option (Decomp × List Nat × Option Err) :=
  match fuel with
  | 0 => none
  | fuel + 1 =>
    if f.toRead ≠ [] then
      let n := min cap f.toRead.length
      some ({ f with toRead := f.toRead.drop n }, f.toRead.take n, none)
    else
      match f.err with
      | some e => some (f, [], some e)
      | none =>
        match runStep fuel f with
        | none => none
        | some f => flateRead fuel cap f

/-- The observable outcome of `Extract`: a byte slice and error, or the
nil-pointer panic of dereferencing a missing access point. -/
inductive ExRes : Type
  | res (bytes : List Nat) (e : Option Err)
  | panicked
  deriving DecidableEq, Repr

/-- The read-out loop of `Extract`: fill the `size`-byte buffer from the
rehydrated decoder, stopping on a zero-byte read, a full buffer or EOF, and
return the buffer from position `dropN` on — including whatever tail was
never written (zero bytes), exactly like the Go `return b[offset-pt.woffset:]`. -/
def extractLoop (fuel : Nat) (f : Decomp) (acc : List Nat) (size dropN : Nat) :
    Option ExRes :=
  match fuel with
  | 0 => none
  | fuel + 1 =>
    match flateRead fuel (size - acc.length) f with
    | none => none
    | some (f, bs, e) =>
      let acc2 := acc ++ bs
      if bs.length = 0 ∨ acc2.length = size ∨ e = some .eof then
        some (.res ((acc2 ++ List.replicate (size - acc2.length) 0).drop dropN) e)
      else extractLoop fuel f acc2 size dropN

/-- gzran's `Extract` over the file's bytes: empty result for nonpositive
length or a nil index; locate an access point, reparse the header for its
length, seek to `pt.roffset + headerBytes`, rehydrate and read
`length + offset - pt.woffset` bytes.  A located-point miss (possible with
a non-nil empty index) dereferences nil. -/
def extract (file : List Nat) (idx : Option (List Point)) (offset length : Int)
    (fuel : Nat) : Option ExRes :=
  if length ≤ 0 ∨ idx = none then some (.res [] none)
  else
    let pt? := locate (idx.getD []) offset
    match parseHeader file with
    | .error e => some (.res [] (some e))
    | .ok (hdr, _, _) =>
      match pt? with
      | none => some .panicked
      | some pt =>
        let headerBytes := getHeaderLen hdr
        let f := inflateResume pt (file.drop (pt.roffset + headerBytes))
        extractLoop fuel f [] (length + offset - (pt.woffset : Int)).toNat
          (offset - (pt.woffset : Int)).toNat

/-- Full forward decompression through the framer: concatenate flush units
until the driver reports an error; yields the uncompressed content `U` of a
file together with the terminating status. -/
def gzContent (fuel : Nat) (z : GzReader) (acc : List Nat) : Option (List Nat × Err) :=
  match fuel with
  | 0 => none
  | fuel + 1 =>
    match gzReadBlock fuel z with
    | none => none
    | some (z, b, none) => gzContent fuel z (acc ++ b)
    | some (_, b, some e) => some (acc ++ b, e)

/-- A minimal valid gzip file: flagless header, one final stored block
holding the single byte 0x61, correct CRC-32 and ISIZE trailer. -/
def tinyFile : List Nat :=
  [31, 139, 8, 0, 0, 0, 0, 0, 0, 0] ++ [1, 1, 0, 254, 255, 97] ++
  le32 (crc32Append 0 [97]) ++ le32 1

/-- The access point recorded before the first block: the snapshot of the
pristine decoder. -/
def freshPoint : Point :=
  { roffset := 0, woffset := 0, b := 0, nb := 0, h1 := emptyHuff, h2 := emptyHuff,
    bits := List.replicate (maxLit + maxDist) 0, codebits := List.replicate numCodes 0,
    hist := List.replicate maxHist 0, hp := 0, hw := 0, hfull := false,
    buf := [0, 0, 0, 0], step := .nextBlockTag, final := false, err := none,
    hl := .noTbl, hd := .noTbl, copyLen := 0, copyDist := 0 }

/-- A valid gzip file with FNAME set whose name is the single Latin-1 byte
0xFF (ÿ) — on disk the name field is 2 bytes (`FF 00`) — and whose content
is the single byte 0x61. -/
def nameFile : List Nat :=
  [31, 139, 8, 8, 0, 0, 0, 0, 0, 0] ++ [255, 0] ++ [1, 1, 0, 254, 255, 97] ++
  le32 (crc32Append 0 [97]) ++ le32 1

/-- The header `gzip.NewReader` parses out of `nameFile`: the name comes
back UTF-8 re-encoded as the two bytes `C3 BF`. -/
def nameHdr : GzHdr :=
  { flg := 8, name := [195, 191], comment := [], extra := [] }

/-- `tinyFile` followed by eight residual zero bytes after the trailer. -/
def residFile : List Nat := tinyFile ++ [0, 0, 0, 0, 0, 0, 0, 0]

/-- The framer state over `residFile` right after the header. -/
def residZ0 : GzReader :=
  match gzNewReader residFile with
  | .ok z => z
  | .error _ =>
    { flate := newDecomp [], digest := 0, size := 0, err := none,
      hdr := { flg := 0, name := [], comment := [], extra := [] } }

/-- The framer state after the first `gzReadBlock` call on `residFile`
(which delivers the content). -/
def residZ1 : GzReader := ((gzReadBlock 50 residZ0).getD (residZ0, [], none)).1

/-- The framer state after the second `gzReadBlock` call on `residFile`
(which validates the trailer and reports EOF). -/
def residZ2 : GzReader := ((gzReadBlock 50 residZ1).getD (residZ1, [], none)).1

/-- Uncompressed size of the large stored-block test file: 17 stored blocks
of 65535 zero bytes. -/
def c2N : Nat := 17 * 65535

/-- IEEE CRC-32 of the large test file's content (all zeros). -/
def c2crc : Nat := crc32Append 0 (List.replicate c2N 0)

/-- Trailer of the large test file: little-endian CRC-32 and ISIZE. -/
def c2trailer : List Nat := le32 c2crc ++ le32 c2N

/-- Stored block `j` (1-based) of the large test file: header byte (final
bit set on block 17), the `65535 / ~65535` length pair, 65535 zero bytes. -/
def c2Block (j : Nat) : List Nat :=
  (if j = 17 then 1 else 0) :: 255 :: 255 :: 0 :: 0 :: List.replicate 65535 0

/-- The large test file's deflate payload from block `j` on, ending in the
trailer. -/
def c2stream (j : Nat) : List Nat :=
  if j ≤ 17 then c2Block j ++ c2stream (j + 1) else c2trailer
termination_by 18 - j
decreasing_by omega

/-- The large test file: flagless gzip header, 17 stored blocks of 65535
zero bytes each, valid trailer.  Its uncompressed size c2N exceeds the span,
so `BuildIndex` records a second access point. -/
def c2file : List Nat := [31, 139, 8, 0, 0, 0, 0, 0, 0, 0] ++ c2stream 1

/-- `(cB k).1` is the number of bytes of the current stored block still to
copy, and `(cB k).2` the number of block headers consumed, when the k-th
32-KiB ring flush of the large test file has just been delivered.  Each
flush either continues the current block (when ≥ 32768 bytes remain) or
crosses exactly one block header. -/
def cB : Nat → Nat × Nat
  | 0 => (0, 0)
  | 1 => (32767, 1)
  | k + 2 =>
    let p := cB (k + 1)
    if 32768 ≤ p.1 then (p.1 - 32768, p.2) else (p.1 + 32767, p.2 + 1)

/-- The framer state over the large test file after the k-th 32-KiB flush
unit has been delivered (valid for `1 ≤ k ≤ 33`): mid-stored-block with
`(cB k).1` bytes pending, suspended at the `copyData` continuation. -/
def c2Z (k : Nat) : GzReader :=
  { flate :=
    { input := List.replicate (cB k).1 0 ++ c2stream ((cB k).2 + 1),
      roffset := 32768 * k + 5 * (cB k).2,
      woffset := 32768 * k,
      b := 0, nb := 0, h1 := emptyHuff, h2 := emptyHuff,
      bits := List.replicate (maxLit + maxDist) 0,
      codebits := List.replicate numCodes 0,
      hist := List.replicate maxHist 0,
      hp := 0, hw := 0, hfull := true,
      buf := [255, 255, 0, 0],
      step := .copyDataTag, final := decide ((cB k).2 = 17), err := none, toRead := [],
      hl := .noTbl, hd := .noTbl, copyLen := (cB k).1, copyDist := 0 },
    digest := crc32Append 0 (List.replicate (32768 * k) 0),
    size := 32768 * k, err := none,
    hdr := { flg := 0, name := [], comment := [], extra := [] } }

/-- The framer state over the large test file right after the header. -/
def c2z0 : GzReader :=
  { flate := newDecomp (c2stream 1), digest := 0, size := 0, err := none,
    hdr := { flg := 0, name := [], comment := [], extra := [] } }

/-- The framer state after the final partial flush of the large test file:
all c2N bytes delivered, the decoder parked at `NextBlock` with the final
flag set and the ring watermark caught up. -/
def c2Z34 : GzReader :=
  { flate :=
    { input := c2trailer,
      roffset := 17 * 65540,
      woffset := c2N,
      b := 0, nb := 0, h1 := emptyHuff, h2 := emptyHuff,
      bits := List.replicate (maxLit + maxDist) 0,
      codebits := List.replicate numCodes 0,
      hist := List.replicate maxHist 0,
      hp := 32751, hw := 32751, hfull := true,
      buf := [255, 255, 0, 0],
      step := .nextBlockTag, final := true, err := none, toRead := [],
      hl := .noTbl, hd := .noTbl, copyLen := 32751, copyDist := 0 },
    digest := crc32Append 0 (List.replicate c2N 0),
    size := c2N, err := none,
    hdr := { flg := 0, name := [], comment := [], extra := [] } }

/-- The first access point of the large test file. -/
def c2p0 : Point := mkPoint c2z0.flate

/-- The second access point of the large test file: taken mid-stored-block
(65519 bytes of block 17 still pending, step `copyData`). -/
def c2p1 : Point := mkPoint (c2Z 32).flate

/-- The invariant the decompressor's ring cursors satisfy between steps:
the history list really has the fixed array size, the watermark trails the
cursor, and the cursor is strictly inside the ring. -/
def DInv (f : Decomp) : Prop :=
  f.hist.length = maxHist ∧ f.hw ≤ f.hp ∧ f.hp < maxHist

/-- What one decoder step guarantees when entered with `toRead` drained:
`woffset` advances by exactly the bytes newly exposed in `toRead`, a
nonempty flush leaves the sticky error untouched, and the ring invariant is
preserved. -/
def StepOk (f f2 : Decomp) : Prop :=
  f2.woffset = f.woffset + f2.toRead.length ∧
  (f2.toRead ≠ [] → f2.err = f.err) ∧ DInv f2

/-- Driver-level precondition at flush-unit boundaries. -/
def GPre (z : GzReader) : Prop :=
  z.err = none ∧ z.flate.toRead = [] ∧ z.flate.err = none ∧ DInv z.flate

/-- The decoder state after the first `gzReadBlock` call on `residFile`
consumed the flate stream and delivered the content. -/
def residF2 : Decomp := ((readBlock 50 residZ1.flate).getD (residZ1.flate, [], none)).1

/-- A decoder state whose `hl` and `hd` alias its own tables (as after a
dynamic-Huffman block header). -/
def c3state : Decomp := { newDecomp [] with hl := .ownH1, hd := .ownH2 }

/-- A decoder state with a pending flush unit. -/
def c10state : Decomp := { newDecomp [] with toRead := [7] }

/-- A decoder state about to decode a fixed-block distance: one zero input
byte, nil distance table. -/
def c8dIn : Decomp := newDecomp [0]

/-- The state `decodeDist` leaves behind on `c8dIn` (it decodes distance 1). -/
def c8dOut : Decomp := ((decodeDist 5 c8dIn).getD (c8dIn, .error .internal)).1

set_option maxRecDepth 100000
set_option maxHeartbeats 2000000

/-- C1: the round-trip of `Extract` against full decompression fails on a
valid gzip file whose FNAME holds the Latin-1 byte 0xFF: `BuildIndex`
succeeds and the uncompressed content `U` is the single byte 0x61, yet
`Extract(F, I, 0, 1)` returns a zero byte and a corrupt-input error instead
of `U[0..1]` with no error — `getHeaderLen` counts the UTF-8 re-encoded
name (2 bytes) instead of its 1 on-disk byte, so `Extract` seeks one byte
past the first block. -/
theorem c1_roundtrip_failing_input :
    buildIndex nameFile 50 = some (.ok [freshPoint]) ∧
    (gzNewReader nameFile).map (fun z => gzContent 50 z []) = .ok (some ([97], .eof)) ∧
    extract nameFile (some [freshPoint]) 0 1 50 = some (.res [0] (some (.corrupt 5))) ∧
    ExRes.res [0] (some (.corrupt 5)) ≠ ExRes.res [97] none :=
  ⟨by rfl, by rfl, by rfl, by decide⟩

/-- C6: on `tinyFile` (uncompressed content `U = [0x61]`, `N = 1`) a request
at `offset = N` returns a buffer of exactly `length` zero bytes together
with EOF — not the empty result the claim (and the function's own doc
comment, which promises fewer than `length` bytes) describes: the code
returns `b[offset-pt.woffset:]`, the full zero-padded allocation. -/
theorem c6_eof_returns_padded_buffer :
    buildIndex tinyFile 50 = some (.ok [freshPoint]) ∧
    (gzNewReader tinyFile).map (fun z => gzContent 50 z []) = .ok (some ([97], .eof)) ∧
    extract tinyFile (some [freshPoint]) 1 1 50 = some (.res [0] (some .eof)) ∧
    ([0] : List Nat) ≠ [] :=
  ⟨by rfl, by rfl, by rfl, by decide⟩

/-- C5 counterexample: with a non-nil empty Index and positive length,
`Extract` does not return an empty slice with no error — the backward scan
finds no point, the guard `idx == nil` does not fire, and the code
dereferences the nil access point. -/
theorem c5_counterexample :
    extract tinyFile (some []) 0 1 50 = some .panicked ∧
    ExRes.panicked ≠ ExRes.res [] none :=
  ⟨by rfl, by decide⟩

/-- C5 as amended: `Extract` returns an empty slice and no error for every
nonpositive length and for a nil Index (the cases the code's
`length <= 0 || idx == nil` guard covers), touching no access point. -/
theorem c5_nil_or_nonpositive (file : List Nat) (idx : Option (List Point))
    (offset length : Int) (fuel : Nat) (h : length ≤ 0 ∨ idx = none) :
    extract file idx offset length fuel = some (.res [] none) := by
  unfold extract
  rw [if_pos h]

theorem c5_nil_or_nonpositive_w :
    extract tinyFile (some [freshPoint]) 5 0 50 = some (.res [] none) :=
  c5_nil_or_nonpositive tinyFile (some [freshPoint]) 5 0 50 (Or.inl (by decide))

/-- C7 counterexample: on a header whose FNAME is the Latin-1 byte 0xFF the
parser consumes 12 bytes but `getHeaderLen` reports 13, because
`readString` re-encoded the name to the two UTF-8 bytes `C3 BF` and
`len(Name)` counts those. -/
theorem c7_counterexample :
    parseHeader nameFile =
      .ok (nameHdr, 12, [1, 1, 0, 254, 255, 97] ++ le32 (crc32Append 0 [97]) ++ le32 1) ∧
    getHeaderLen nameHdr = 13 ∧ (13 : Nat) ≠ 12 :=
  ⟨by rfl, by rfl, by decide⟩

/-- Helper for C8: the RFC 1951 distance expansion `1<<(nb+1) + 1 + extra`
with `nb = (d0-2)>>1` and `extra` capped at `nb+1` bits never exceeds
32768, for any distance symbol `4 ≤ d0 < 30` and any accumulator bits. -/
theorem distExpand_le (d0 bv : Nat) (h4 : 4 ≤ d0) (h30 : d0 < 30) :
    1 <<< ((d0 - 2) >>> 1 + 1) + 1 +
      ((d0 &&& 1) <<< ((d0 - 2) >>> 1) ||| bv &&& (1 <<< ((d0 - 2) >>> 1) - 1)) ≤ 32768 := by
  have h1 : (d0 - 2) >>> 1 = (d0 - 2) / 2 := by
    have h2 := Nat.shiftRight_eq_div_pow (d0 - 2) 1
    simpa using h2
  rw [h1]
  set nb := (d0 - 2) / 2 with hnbd
  have hnb13 : nb ≤ 13 := by omega
  have hone : ∀ m : Nat, (1 : Nat) <<< m = 2 ^ m := fun m => by
    rw [Nat.shiftLeft_eq, Nat.one_mul]
  have hx1 : (d0 &&& 1) <<< nb < 2 ^ (nb + 1) := by
    have hle : d0 &&& 1 ≤ 1 := Nat.and_le_right
    rw [Nat.shiftLeft_eq]
    have h2 : (d0 &&& 1) * 2 ^ nb ≤ 2 ^ nb := by
      calc (d0 &&& 1) * 2 ^ nb ≤ 1 * 2 ^ nb := Nat.mul_le_mul_right _ hle
        _ = 2 ^ nb := Nat.one_mul _
    calc (d0 &&& 1) * 2 ^ nb ≤ 2 ^ nb := h2
      _ < 2 ^ (nb + 1) := Nat.pow_lt_pow_succ (by norm_num)
  have hx2 : bv &&& (1 <<< nb - 1) < 2 ^ (nb + 1) := by
    rw [hone nb, Nat.and_pow_two_sub_one_eq_mod]
    calc bv % 2 ^ nb < 2 ^ nb := Nat.mod_lt _ (Nat.pos_pow_of_pos _ (by norm_num))
      _ < 2 ^ (nb + 1) := Nat.pow_lt_pow_succ (by norm_num)
  have hextra := Nat.or_lt_two_pow hx1 hx2
  have hple : (2 : Nat) ^ (nb + 1) ≤ 2 ^ 14 := Nat.pow_le_pow_right (by norm_num) (by omega)
  have h14 : (2 : Nat) ^ 14 = 16384 := by norm_num
  rw [hone (nb + 1)]
  omega

/-- Helper for C8: every distance `decodeDist` successfully produces is at
most 32768, whether decoded through `hd` or the 5-bit reversed raw path. -/
theorem decodeDist_le (fuel : Nat) (f f2 : Decomp) (d : Nat)
    (h : decodeDist fuel f = some (f2, .ok d)) : d ≤ 32768 := by
  rw [decodeDist] at h
  split at h
  · exact absurd h (by simp)
  · exact absurd h (by simp)
  · rename_i fD d0 hraweq
    split at h
    · simp only [Option.some.injEq, Prod.mk.injEq, Except.ok.injEq] at h
      omega
    · split at h
      · exact absurd h (by simp)
      · rename_i h4 h30
        simp only [] at h
        split at h
        · exact absurd h (by simp)
        · rename_i f3 hnbeq
          simp only [Option.some.injEq, Prod.mk.injEq, Except.ok.injEq] at h
          obtain ⟨-, hd⟩ := h
          rw [← hd]
          exact distExpand_le d0 f3.b (by omega) (by omega)

/-- C8: distance validation before a history copy.  Every decoded distance
is at most 32768 (so the `dist > len(hist)` guard cannot fire on a decoded
back-reference), and when the ring has not yet filled and the distance
exceeds the write cursor, the decoder stops with a corrupt-input error at
the current input offset, writing nothing: the state is unchanged except
for the sticky error. -/
theorem c8_distance_validation :
    (∀ fuel f f2 d, decodeDist fuel f = some (f2, .ok d) → d ≤ 32768) ∧
    (∀ fuel length dist (f : Decomp), dist ≤ 32768 → f.hfull = false → f.hp < dist →
      checkAndCopy fuel length dist f =
        some ({ f with err := some (.corrupt f.roffset) }, true)) := by
  refine ⟨decodeDist_le, fun fuel length dist f hle hfl hlt => ?_⟩
  have hm : maxHist = 32768 := rfl
  rw [checkAndCopy, if_neg (by omega), if_pos ⟨hfl, hlt⟩]

theorem c8_distance_validation_w :
    (1 : Nat) ≤ 32768 ∧
    checkAndCopy 5 3 1 (newDecomp []) =
      some ({ newDecomp [] with err := some (.corrupt 0) }, true) :=
  ⟨c8_distance_validation.1 5 c8dIn c8dOut 1 (by rfl),
   c8_distance_validation.2 5 3 1 (newDecomp []) (by decide) (by rfl) (by decide)⟩

/-- C3: the snapshot/restore pair preserves Huffman-table aliasing.  For
any live decoder state, restoring from its snapshot copies the tables
(`h1`, `h2` equal in contents), re-points `hl` at the restored decoder's
own `h1` exactly when the live `hl` pointed at its own `h1` (likewise `hd`
at `h2`), keeps nil pointers nil, and keeps an independent table
independent with equal contents. -/
theorem c3_alias_preserved (f : Decomp) (input : List Nat) :
    ((inflateResume (mkPoint f) input).h1 = f.h1 ∧
     (inflateResume (mkPoint f) input).h2 = f.h2) ∧
    (f.hl = .ownH1 → (inflateResume (mkPoint f) input).hl = .ownH1) ∧
    (f.hd = .ownH2 → (inflateResume (mkPoint f) input).hd = .ownH2) ∧
    (f.hl = .noTbl → (inflateResume (mkPoint f) input).hl = .noTbl) ∧
    (f.hd = .noTbl → (inflateResume (mkPoint f) input).hd = .noTbl) ∧
    (∀ t, f.hl = .ext t → (inflateResume (mkPoint f) input).hl = .ext t) ∧
    (∀ t, f.hd = .ext t → (inflateResume (mkPoint f) input).hd = .ext t) := by
  refine ⟨⟨rfl, rfl⟩, ?_, ?_, ?_, ?_, ?_, ?_⟩ <;>
    first
      | (intro h; simp [inflateResume, mkPoint, h])
      | (intro t h; simp [inflateResume, mkPoint, h])

theorem c3_alias_preserved_w :
    (inflateResume (mkPoint c3state) []).hl = .ownH1 ∧
    (inflateResume (mkPoint c3state) []).hd = .ownH2 :=
  ⟨(c3_alias_preserved c3state []).2.1 rfl, (c3_alias_preserved c3state []).2.2.1 rfl⟩

/-- Helper shared by C10 and C2: whatever `readBlock` returns, a nil error
comes with a nonempty unit and a drained `toRead`, and an error comes with
an empty slice. -/
theorem readBlock_cases (fuel : Nat) :
    ∀ f f2 b e, readBlock fuel f = some (f2, b, e) →
      (e = none → b ≠ [] ∧ f2.toRead = []) ∧ (e ≠ none → b = []) := by
  induction fuel with
  | zero => intro f f2 b e h; simp [readBlock] at h
  | succ n ih =>
    intro f f2 b e h
    rw [readBlock] at h
    by_cases ht : f.toRead ≠ []
    · rw [if_pos ht] at h
      simp only [Option.some.injEq, Prod.mk.injEq] at h
      obtain ⟨hf, hb, he⟩ := h
      subst hf hb he
      exact ⟨fun _ => ⟨ht, rfl⟩, fun hne => absurd rfl hne⟩
    · rw [if_neg ht] at h
      cases herr : f.err with
      | some e0 =>
        rw [herr] at h
        simp only [Option.some.injEq, Prod.mk.injEq] at h
        obtain ⟨hf, hb, he⟩ := h
        subst hb he
        exact ⟨fun hn => by simp at hn, fun _ => rfl⟩
      | none =>
        rw [herr] at h
        cases hrs : runStep n f with
        | none => rw [hrs] at h; simp at h
        | some f1 =>
          rw [hrs] at h
          exact ih f1 f2 b e h

/-- C10: whole-unit block delivery.  `readBlock` never returns bytes along
with an error and never returns an empty slice with a nil error; a
successful return drains `toRead` completely; and from a state with a
pending flush unit it returns exactly that unit (a fresh copy of all of
`toRead`), leaving `toRead` empty. -/
theorem c10_whole_unit_delivery :
    (∀ fuel f f2 b e, readBlock fuel f = some (f2, b, e) →
      (e = none → b ≠ [] ∧ f2.toRead = []) ∧ (e ≠ none → b = [])) ∧
    (∀ fuel (f : Decomp), f.toRead ≠ [] →
      readBlock (fuel + 1) f = some ({ f with toRead := [] }, f.toRead, none)) := by
  refine ⟨fun fuel => readBlock_cases fuel, fun fuel f ht => ?_⟩
  rw [readBlock, if_pos ht]

theorem c10_whole_unit_delivery_w :
    readBlock 1 c10state = some ({ c10state with toRead := [] }, [7], none) :=
  c10_whole_unit_delivery.2 0 c10state (by decide)

/-- Helper: appending no bytes to a running CRC-32 digest leaves it
unchanged. -/
theorem crc32Append_nil (c : Nat) : crc32Append c [] = c := by
  simp [crc32Append, Nat.xor_assoc]

/-- Counterexample for C9: on `residFile` (a valid one-byte gzip stream
followed by 8 residual zero bytes) the framer's second call returns EOF
after validating the trailer, and `residZ2.err` is still `none` — the EOF
is not latched — so the third call, instead of returning EOF again as the
claim requires, consumes the residual bytes as a second trailer and
reports a checksum error. -/
theorem c9_counterexample :
    gzReadBlock 50 residZ0 = some (residZ1, [97], none) ∧
    gzReadBlock 50 residZ1 = some (residZ2, [], some .eof) ∧
    residZ2.err = none ∧
    (gzReadBlock 50 residZ2).map (fun r => (r.2.1, r.2.2)) = some ([], some .checksum) ∧
    some (([] : List Nat), some Err.checksum) ≠ some ([], some Err.eof) :=
  ⟨by rfl, by rfl, by rfl, by rfl, by decide⟩

/-- C9 (amended): when the inner DEFLATE stream ends (readBlock returns an
empty unit with EOF) and at least 8 input bytes remain, `gzReadBlock`
reads the 8-byte little-endian trailer; a CRC-32 or ISIZE mismatch against
the running digest and size counter yields the checksum error, and a match
yields EOF with the trailer consumed.  (The original claim's "every
subsequent read returns EOF" clause fails because the EOF is not stored in
`z.err`; see the counterexample.) -/
theorem c9_trailer (fuel : Nat) (z : GzReader) (f2 : Decomp)
    (hz : z.err = none) (hsz : z.size < 2 ^ 32)
    (hrb : readBlock fuel z.flate = some (f2, [], some .eof))
    (h8 : 8 ≤ f2.input.length) :
    (¬(get4 (f2.input.take 8) = z.digest ∧ get4 ((f2.input.take 8).drop 4) = z.size) →
      (gzReadBlock fuel z).map (fun r => (r.2.1, r.2.2)) = some ([], some .checksum)) ∧
    ((get4 (f2.input.take 8) = z.digest ∧ get4 ((f2.input.take 8).drop 4) = z.size) →
      gzReadBlock fuel z =
        some ({ z with flate := { f2 with input := f2.input.drop 8 } }, [], some .eof)) := by
  have hread : readFull 8 f2.input =
      (f2.input.take 8, f2.input.drop 8, 8, none) := by
    rw [readFull]
    simp only [List.length_take]
    rw [Nat.min_eq_left h8]
    simp
  constructor
  · intro hne
    simp only [gzReadBlock, hz, hrb]
    rw [if_neg (by simp)]
    simp only [crc32Append_nil, List.length_nil, Nat.add_zero, Nat.mod_eq_of_lt hsz, hread]
    rw [if_pos (by tauto)]
    rfl
  · intro heq
    simp only [gzReadBlock, hz, hrb]
    rw [if_neg (by simp)]
    simp only [crc32Append_nil, List.length_nil, Nat.add_zero, Nat.mod_eq_of_lt hsz, hread]
    rw [if_neg (by simp [heq.1, heq.2])]

theorem c9_trailer_w :
    gzReadBlock 50 residZ1 =
      some ({ residZ1 with flate := { residF2 with input := residF2.input.drop 8 } },
        [], some Err.eof) :=
  (c9_trailer 50 residZ1 residF2 (by rfl) (by decide) (by rfl) (by decide)).2
    ⟨by decide, by decide⟩

/-- Helper: the Latin-1 to UTF-8 re-encoding is the identity whenever its
output is pure ASCII (equivalently, whenever its input was). -/
theorem latin1Utf8_ascii (bs : List Nat) (h : ∀ b ∈ latin1Utf8 bs, b < 128) :
    latin1Utf8 bs = bs := by
  induction bs with
  | nil => rfl
  | cons c t ih =>
    have hcons : latin1Utf8 (c :: t) =
        (if c < 128 then [c] else [192 ||| (c >>> 6), 128 ||| (c &&& 63)]) ++
          latin1Utf8 t := rfl
    rw [hcons] at h ⊢
    by_cases hc : c < 128
    · rw [if_pos hc] at h ⊢
      simp only [List.singleton_append, List.cons.injEq, true_and]
      exact ih (fun b hb => h b (by simp [hb]))
    · rw [if_neg hc] at h
      have h1 : (192 ||| (c >>> 6)) < 128 := h _ (by simp)
      have h2 : (192 ||| (c >>> 6)).testBit 7 = false :=
        Nat.testBit_eq_false_of_lt (i := 7) (by omega)
      rw [Nat.testBit_or] at h2
      have h3 : Nat.testBit 192 7 = true := by decide
      rw [h3] at h2
      simp at h2

/-- Helper: a successful `readString` whose result is pure ASCII consumed
exactly the string's bytes plus the NUL terminator. -/
theorem readGzString_len (inp : List Nat) : ∀ i raw nc s rest,
    readGzString i raw nc inp = .ok (s, rest) → (∀ b ∈ s, b < 128) →
    raw.length + inp.length = s.length + 1 + rest.length := by
  induction inp with
  | nil =>
    intro i raw nc s rest h _
    rw [readGzString] at h
    split at h <;> simp at h
  | cons c t ih =>
    intro i raw nc s rest h hs
    rw [readGzString] at h
    split at h
    · simp at h
    · simp only [] at h
      by_cases hc : c = 0
      · rw [if_pos hc] at h
        simp only [Except.ok.injEq, Prod.mk.injEq] at h
        obtain ⟨hsv, hrv⟩ := h
        subst hrv
        by_cases hn : (nc || decide (127 < c)) = true
        · rw [if_pos hn] at hsv
          subst hsv
          rw [latin1Utf8_ascii raw hs]
          simp; omega
        · rw [if_neg hn] at hsv
          subst hsv
          simp; omega
      · rw [if_neg hc] at h
        have h2 := ih (i + 1) (raw ++ [c]) (nc || decide (127 < c)) s rest h hs
        have h3 : (raw ++ [c]).length = raw.length + 1 := by simp
        rw [h3] at h2
        simp only [List.length_cons]
        omega

/-- Helper: a fully successful `io.ReadFull` returns exactly `n` bytes. -/
theorem readFull_ok_len (n : Nat) (inp : List Nat)
    (h : (readFull n inp).2.2.2 = none) : (readFull n inp).1.length = n := by
  rw [readFull] at h ⊢
  simp only [] at h ⊢
  by_cases hn : (inp.take n).length = n
  · simpa using hn
  · rw [if_neg hn] at h
    split at h <;> simp at h

/-- C7 (amended): for every gzip header whose FNAME and FCOMMENT strings are
pure ASCII, `getHeaderLen` equals the number of bytes the header parser
consumed, so `Extract` seeks to `pt.roffset + headerBytes` correctly.  (The
unrestricted claim fails: for non-ASCII names the parsed string is UTF-8
re-encoded and longer than its on-disk form; see the counterexample.) -/
theorem c7_headerlen_ascii (file : List Nat) (hdr : GzHdr) (consumed : Nat) (rest : List Nat)
    (h : parseHeader file = .ok (hdr, consumed, rest))
    (hname : ∀ b ∈ hdr.name, b < 128) (hcom : ∀ b ∈ hdr.comment, b < 128) :
    getHeaderLen hdr = consumed := by
  rw [parseHeader] at h
  simp only [] at h
  split at h
  · simp at h
  split at h
  · simp at h
  split at h
  · simp at h
  rename_i extra extraLen inp1 hex
  split at h
  · simp at h
  rename_i name1 nameLen inp2 hnx
  split at h
  · simp at h
  rename_i comment1 commentLen inp3 hcx
  split at h
  · simp at h
  rename_i crcLen inp4 hcrc
  simp only [Except.ok.injEq, Prod.mk.injEq] at h
  obtain ⟨hhdr, hcons, hrest⟩ := h
  subst hhdr
  have hname1 : ∀ b ∈ name1, b < 128 := hname
  have hcom1 : ∀ b ∈ comment1, b < 128 := hcom
  have hexlen : extraLen =
      if (readFull 10 file).1.getD 3 0 &&& 4 ≠ 0 then extra.length + 2 else 0 := by
    by_cases hf4 : (readFull 10 file).1.getD 3 0 &&& 4 ≠ 0
    · rw [if_pos hf4] at hex ⊢
      split at hex
      · simp at hex
      split at hex
      · simp at hex
      rename_i h2none
      simp only [Except.ok.injEq, Prod.mk.injEq] at hex
      have hlen := readFull_ok_len _ _ h2none
      rw [hex.1] at hlen
      omega
    · rw [if_neg hf4] at hex ⊢
      simp only [Except.ok.injEq, Prod.mk.injEq] at hex
      omega
  have hnmlen : nameLen =
      if (readFull 10 file).1.getD 3 0 &&& 8 ≠ 0 then name1.length + 1 else 0 := by
    by_cases hf8 : (readFull 10 file).1.getD 3 0 &&& 8 ≠ 0
    · rw [if_pos hf8] at hnx ⊢
      split at hnx
      · simp at hnx
      rename_i s rest1 hrg
      simp only [Except.ok.injEq, Prod.mk.injEq] at hnx
      obtain ⟨hs1, hs2, hs3⟩ := hnx
      subst hs1
      have hlen := readGzString_len inp1 0 [] false _ rest1 hrg hname1
      simp only [List.length_nil, Nat.zero_add] at hlen
      omega
    · rw [if_neg hf8] at hnx ⊢
      simp only [Except.ok.injEq, Prod.mk.injEq] at hnx
      omega
  have hcmlen : commentLen =
      if (readFull 10 file).1.getD 3 0 &&& 16 ≠ 0 then comment1.length + 1 else 0 := by
    by_cases hf16 : (readFull 10 file).1.getD 3 0 &&& 16 ≠ 0
    · rw [if_pos hf16] at hcx ⊢
      split at hcx
      · simp at hcx
      rename_i s rest1 hrg
      simp only [Except.ok.injEq, Prod.mk.injEq] at hcx
      obtain ⟨hs1, hs2, hs3⟩ := hcx
      subst hs1
      have hlen := readGzString_len inp2 0 [] false _ rest1 hrg hcom1
      simp only [List.length_nil, Nat.zero_add] at hlen
      omega
    · rw [if_neg hf16] at hcx ⊢
      simp only [Except.ok.injEq, Prod.mk.injEq] at hcx
      omega
  have hcrclen : crcLen =
      if (readFull 10 file).1.getD 3 0 &&& 2 ≠ 0 then 2 else 0 := by
    by_cases hf2 : (readFull 10 file).1.getD 3 0 &&& 2 ≠ 0
    · rw [if_pos hf2] at hcrc ⊢
      split at hcrc
      · simp at hcrc
      split at hcrc
      · simp at hcrc
      simp only [Except.ok.injEq, Prod.mk.injEq] at hcrc
      omega
    · rw [if_neg hf2] at hcrc ⊢
      simp only [Except.ok.injEq, Prod.mk.injEq] at hcrc
      omega
  have hghl : getHeaderLen ⟨(readFull 10 file).1.getD 3 0, name1, comment1, extra⟩ =
      10 + (if (readFull 10 file).1.getD 3 0 &&& 8 ≠ 0 then name1.length + 1 else 0) +
        (if (readFull 10 file).1.getD 3 0 &&& 4 ≠ 0 then extra.length + 2 else 0) +
        (if (readFull 10 file).1.getD 3 0 &&& 16 ≠ 0 then comment1.length + 1 else 0) +
        (if (readFull 10 file).1.getD 3 0 &&& 2 ≠ 0 then 2 else 0) := by
    rw [getHeaderLen]
    dsimp only []
    by_cases h8 : (readFull 10 file).1.getD 3 0 &&& 8 = 0 <;>
      by_cases h4 : (readFull 10 file).1.getD 3 0 &&& 4 = 0 <;>
        by_cases h16 : (readFull 10 file).1.getD 3 0 &&& 16 = 0 <;>
          by_cases h2 : (readFull 10 file).1.getD 3 0 &&& 2 = 0 <;>
            simp only [h8, h4, h16, h2, ne_eq, eq_self_iff_true, not_true, not_false_iff,
              not_false_eq_true, not_true_eq_false, ite_true, ite_false] <;> omega
  rw [hghl, ← hnmlen, ← hexlen, ← hcmlen, ← hcrclen]
  omega


theorem c7_headerlen_ascii_w :
    getHeaderLen ⟨0, [], [], []⟩ = 10 :=
  c7_headerlen_ascii tinyFile ⟨0, [], [], []⟩ 10 (tinyFile.drop 10) (by rfl)
    (by decide) (by decide)

/-- The fields of the decoder state that the bit-fetching and table-building
helpers never touch: output offset, pending flush unit, and the history
ring with its cursors. -/
def Frame (f f2 : Decomp) : Prop :=
  f2.woffset = f.woffset ∧ f2.toRead = f.toRead ∧ f2.hist = f.hist ∧
    f2.hp = f.hp ∧ f2.hw = f.hw

theorem Frame.refl (f : Decomp) : Frame f f := ⟨rfl, rfl, rfl, rfl, rfl⟩

theorem Frame.trans {f g h : Decomp} (h1 : Frame f g) (h2 : Frame g h) : Frame f h := by
  obtain ⟨a1, b1, c1, d1, e1⟩ := h1
  obtain ⟨a2, b2, c2, d2, e2⟩ := h2
  exact ⟨a2.trans a1, b2.trans b1, c2.trans c1, d2.trans d1, e2.trans e1⟩

theorem forwardCopy_length (n : Nat) : ∀ mem dst src,
    (forwardCopy mem dst src n).length = mem.length := by
  induction n with
  | zero => intro mem dst src; rfl
  | succ m ih =>
    intro mem dst src
    rw [forwardCopy, ih]
    simp

theorem setSeg_length (l seg : List Nat) (i : Nat) (h : i + seg.length ≤ l.length) :
    (setSeg l i seg).length = l.length := by
  rw [setSeg]
  simp only [List.length_append, List.length_take, List.length_drop]
  omega

theorem needBitsGo_frame (fuel : Nat) : ∀ n f, Frame f (needBitsGo fuel n f).1 := by
  induction fuel with
  | zero => intro n f; exact Frame.refl f
  | succ m ih =>
    intro n f
    rw [needBitsGo]
    by_cases hn : f.nb < n
    · rw [if_pos hn]
      match hin : f.input with
      | [] => exact Frame.refl f
      | c :: rest => exact Frame.trans (Frame.refl _) (ih n _)
    · rw [if_neg hn]; exact Frame.refl f

theorem needBits_frame (n : Nat) (f : Decomp) : Frame f (needBits n f).1 :=
  needBitsGo_frame n n f

theorem huffSymLoop_frame (fuel : Nat) : ∀ h n f f2 r,
    huffSymLoop fuel h n f = some (f2, r) → Frame f f2 := by
  induction fuel with
  | zero => intro h n f f2 r hs; simp [huffSymLoop] at hs
  | succ m ih =>
    intro h n f f2 r hs
    rw [huffSymLoop] at hs
    have hnb := needBits_frame n f
    match hneed : needBits n f with
    | (f1, some e) =>
      rw [hneed] at hs
      rw [hneed] at hnb
      simp only [Option.some.injEq, Prod.mk.injEq] at hs
      rw [← hs.1]
      exact hnb
    | (f1, none) =>
      rw [hneed] at hs
      rw [hneed] at hnb
      simp only [] at hs
      split at hs
      · split at hs
        · simp only [Option.some.injEq, Prod.mk.injEq] at hs
          rw [← hs.1]
          exact hnb
        · split at hs
          · simp only [Option.some.injEq, Prod.mk.injEq] at hs
            rw [← hs.1]
            exact hnb
          · exact Frame.trans hnb (ih _ _ _ _ _ hs)
      · split at hs
        · simp only [Option.some.injEq, Prod.mk.injEq] at hs
          rw [← hs.1]
          exact hnb
        · exact Frame.trans hnb (ih _ _ _ _ _ hs)

theorem huffSym_frame (fuel : Nat) (h : HuffmanDecoder) (f f2 : Decomp) (r : Except Err Nat)
    (hs : huffSym fuel h f = some (f2, r)) : Frame f f2 :=
  huffSymLoop_frame fuel h h.min f f2 r hs

theorem decodeDist_frame (fuel : Nat) (f f2 : Decomp) (r : Except Err Nat)
    (hs : decodeDist fuel f = some (f2, r)) : Frame f f2 := by
  rw [decodeDist] at hs
  simp only [] at hs
  have hraw : ∀ f1 r1,
      (match resolveRef f f.hd with
        | none =>
          match needBits 5 f with
          | (f, some e) => some (f, Except.error e)
          | (f, none) =>
            some ({ f with b := f.b >>> 5, nb := f.nb - 5 },
              Except.ok (reverseByte ((f.b &&& 31) <<< 3)))
        | some h => huffSym fuel h f) = some (f1, r1) → Frame f f1 := by
    intro f1 r1 hr
    match hres : resolveRef f f.hd with
    | none =>
      rw [hres] at hr
      have hnb := needBits_frame 5 f
      match hneed : needBits 5 f with
      | (fa, some e) =>
        rw [hneed] at hr
        rw [hneed] at hnb
        simp only [Option.some.injEq, Prod.mk.injEq] at hr
        rw [← hr.1]
        exact hnb
      | (fa, none) =>
        rw [hneed] at hr
        rw [hneed] at hnb
        simp only [Option.some.injEq, Prod.mk.injEq] at hr
        rw [← hr.1]
        exact hnb
    | some h =>
      rw [hres] at hr
      exact huffSym_frame fuel h f f1 r1 hr
  split at hs
  · exact absurd hs (by simp)
  · rename_i f1 e heq
    have hf1 := hraw f1 (.error e) heq
    simp only [Option.some.injEq, Prod.mk.injEq] at hs
    rw [← hs.1]
    exact hf1
  · rename_i f1 d heq
    have hf1 := hraw f1 (.ok d) heq
    split at hs
    · simp only [Option.some.injEq, Prod.mk.injEq] at hs
      rw [← hs.1]
      exact hf1
    · split at hs
      · simp only [Option.some.injEq, Prod.mk.injEq] at hs
        rw [← hs.1]
        exact hf1
      · have hnb := needBits_frame ((d - 2) >>> 1) f1
        match hneed : needBits ((d - 2) >>> 1) f1 with
        | (fa, some e) =>
          rw [hneed] at hs
          rw [hneed] at hnb
          simp only [Option.some.injEq, Prod.mk.injEq] at hs
          rw [← hs.1]
          exact Frame.trans hf1 hnb
        | (fa, none) =>
          rw [hneed] at hs
          rw [hneed] at hnb
          simp only [Option.some.injEq, Prod.mk.injEq] at hs
          rw [← hs.1]
          exact Frame.trans hf1 hnb

theorem readCodeLens_frame (fuel : Nat) : ∀ k n f, Frame f (readCodeLens fuel k n f).1 := by
  induction fuel with
  | zero => intro k n f; exact Frame.refl f
  | succ m ih =>
    intro k n f
    rw [readCodeLens]
    by_cases hk : k < n
    · rw [if_pos hk]
      have hnb := needBits_frame 3 f
      match hneed : needBits 3 f with
      | (f1, some e) => rw [hneed] at hnb; exact hnb
      | (f1, none) =>
        rw [hneed] at hnb
        exact Frame.trans hnb (Frame.trans (Frame.refl _) (ih (k + 1) n _))
    · rw [if_neg hk]; exact Frame.refl f

theorem readCodeLens_frame2 (fuel k n : Nat) (f f2 : Decomp) (e : Option Err)
    (h : readCodeLens fuel k n f = (f2, e)) : Frame f f2 := by
  have hx := readCodeLens_frame fuel k n f
  rw [h] at hx
  exact hx

theorem fillBitsLoop_frame (fuel : Nat) : ∀ i n f f2 r,
    fillBitsLoop fuel i n f = some (f2, r) → Frame f f2 := by
  induction fuel with
  | zero => intro i n f f2 r hs; simp [fillBitsLoop] at hs
  | succ m ih =>
    intro i n f f2 r hs
    rw [fillBitsLoop] at hs
    by_cases hk : i < n
    · rw [if_pos hk] at hs
      match hhs : huffSym m f.h1 f with
      | none => rw [hhs] at hs; simp at hs
      | some (f1, .error e) =>
        rw [hhs] at hs
        have hf1 := huffSym_frame m f.h1 f f1 _ hhs
        simp only [Option.some.injEq, Prod.mk.injEq] at hs
        rw [← hs.1]
        exact hf1
      | some (f1, .ok x) =>
        rw [hhs] at hs
        have hf1 := huffSym_frame m f.h1 f f1 _ hhs
        simp only [] at hs
        split at hs
        · have hstep := ih _ _ _ _ _ hs
          exact Frame.trans hf1 (Frame.trans ⟨rfl, rfl, rfl, rfl, rfl⟩ hstep)
        · split at hs
          · simp only [Option.some.injEq, Prod.mk.injEq] at hs
            rw [← hs.1]
            exact hf1
          · rename_i rep0 nbits bval heq
            have hnb := needBits_frame nbits f1
            match hneed : needBits nbits f1 with
            | (fa, some e) =>
              rw [hneed] at hs
              rw [hneed] at hnb
              simp only [Option.some.injEq, Prod.mk.injEq] at hs
              rw [← hs.1]
              exact Frame.trans hf1 hnb
            | (fa, none) =>
              rw [hneed] at hs
              rw [hneed] at hnb
              simp only [] at hs
              split at hs
              · simp only [Option.some.injEq, Prod.mk.injEq] at hs
                rw [← hs.1]
                exact Frame.trans hf1 hnb
              · have hstep := ih _ _ _ _ _ hs
                exact Frame.trans hf1 (Frame.trans hnb
                  (Frame.trans ⟨rfl, rfl, rfl, rfl, rfl⟩ hstep))
    · rw [if_neg hk] at hs
      simp only [Option.some.injEq, Prod.mk.injEq] at hs
      rw [← hs.1]
      exact Frame.refl f

theorem readHuffmanFn_frame (fuel : Nat) (f f2 : Decomp) (r : Option Err)
    (hs : readHuffmanFn fuel f = some (f2, r)) : Frame f f2 := by
  rw [readHuffmanFn] at hs
  have hnb := needBits_frame 14 f
  match hneed : needBits 14 f with
  | (f1, some e) =>
    rw [hneed] at hs
    rw [hneed] at hnb
    simp only [Option.some.injEq, Prod.mk.injEq] at hs
    rw [← hs.1]
    exact hnb
  | (f1, none) =>
    rw [hneed] at hs
    rw [hneed] at hnb
    simp only [] at hs
    split at hs
    · simp only [Option.some.injEq, Prod.mk.injEq] at hs
      rw [← hs.1]
      exact hnb
    · split at hs
      · rename_i fa e hrc
        have hrcl := readCodeLens_frame2 _ _ _ _ _ _ hrc
        simp only [Option.some.injEq, Prod.mk.injEq] at hs
        rw [← hs.1]
        exact Frame.trans hnb (Frame.trans ⟨rfl, rfl, rfl, rfl, rfl⟩ hrcl)
      · rename_i fa hrc
        have hrcl := readCodeLens_frame2 _ _ _ _ _ _ hrc
        have hfa : Frame f fa :=
          Frame.trans hnb (Frame.trans ⟨rfl, rfl, rfl, rfl, rfl⟩ hrcl)
        split at hs
        · simp only [Option.some.injEq, Prod.mk.injEq] at hs
          rw [← hs.1]
          exact Frame.trans hfa ⟨rfl, rfl, rfl, rfl, rfl⟩
        · rename_i hMeta hhi
          split at hs
          · simp at hs
          · rename_i fb e hfb
            have hfbf := fillBitsLoop_frame fuel _ _ _ _ _ hfb
            simp only [Option.some.injEq, Prod.mk.injEq] at hs
            rw [← hs.1]
            exact Frame.trans hfa (Frame.trans ⟨rfl, rfl, rfl, rfl, rfl⟩ hfbf)
          · rename_i fb hfb
            have hfbf := fillBitsLoop_frame fuel _ _ _ _ _ hfb
            have hffb : Frame f fb :=
              Frame.trans hfa (Frame.trans ⟨rfl, rfl, rfl, rfl, rfl⟩ hfbf)
            split at hs
            · simp only [Option.some.injEq, Prod.mk.injEq] at hs
              rw [← hs.1]
              exact hffb
            · rename_i h1b hh1
              split at hs
              · simp only [Option.some.injEq, Prod.mk.injEq] at hs
                rw [← hs.1]
                exact Frame.trans hffb ⟨rfl, rfl, rfl, rfl, rfl⟩
              · rename_i h2b hh2
                simp only [Option.some.injEq, Prod.mk.injEq] at hs
                rw [← hs.1]
                exact Frame.trans hffb ⟨rfl, rfl, rfl, rfl, rfl⟩

theorem flushD_ok (next : StepTag) (f : Decomp) (h1 : f.hist.length = maxHist)
    (h2 : f.hw ≤ f.hp) (h3 : f.hp ≤ maxHist) :
    (flushD next f).woffset = f.woffset + (flushD next f).toRead.length ∧
      DInv (flushD next f) := by
  rw [flushD]
  simp only []
  have hlen : ((f.hist.drop f.hw).take (f.hp - f.hw)).length = f.hp - f.hw := by
    simp only [List.length_take, List.length_drop, h1]
    omega
  by_cases hhp : f.hp = maxHist
  · rw [if_pos hhp]
    refine ⟨?_, ?_, ?_, ?_⟩
    · simp only []
      rw [hlen]
    · simpa using h1
    · simp
    · simp [maxHist]
  · rw [if_neg hhp]
    refine ⟨?_, ?_, ?_, ?_⟩
    · simp only []
      rw [hlen]
    · simpa using h1
    · simp
    · simp only []
      omega

theorem copyHistLoop_ok (fuel : Nat) : ∀ p f f2 fl,
    f.hist.length = maxHist → f.hw ≤ f.hp → f.hp < maxHist → f.toRead = [] →
    copyHistLoop fuel p f = some (f2, fl) →
    f2.woffset = f.woffset + f2.toRead.length ∧ DInv f2 ∧
      (fl = false → f2.toRead = [] ∧ f2.woffset = f.woffset) := by
  induction fuel with
  | zero => intro p f f2 fl _ _ _ _ hs; simp [copyHistLoop] at hs
  | succ m ih =>
    intro p f f2 fl hh1 hh2 hh3 ht hs
    rw [copyHistLoop] at hs
    by_cases hcl : 0 < f.copyLen
    · rw [if_pos hcl] at hs
      simp only [] at hs
      split at hs
      · rename_i hfull
        simp only [Option.some.injEq, Prod.mk.injEq] at hs
        obtain ⟨hf2, hfl⟩ := hs
        subst hf2
        subst hfl
        refine ⟨?_, ?_, fun hc => by simp at hc⟩
        · exact (flushD_ok _ _ (by simp only [forwardCopy_length, hh1])
            (by simp only []; omega) (by simp only []; omega)).1
        · exact (flushD_ok _ _ (by simp only [forwardCopy_length, hh1])
            (by simp only []; omega) (by simp only []; omega)).2
      · rename_i hnfull
        have hrec := ih _ _ _ _ (by simp only [forwardCopy_length, hh1])
          (by simp only []; omega) (by simp only []; omega)
          (by simp only [ht]) hs
        exact ⟨hrec.1, hrec.2.1, hrec.2.2⟩
    · rw [if_neg hcl] at hs
      simp only [Option.some.injEq, Prod.mk.injEq] at hs
      obtain ⟨hf2, hfl⟩ := hs
      subst hf2
      exact ⟨by simp [ht], ⟨hh1, hh2, hh3⟩, fun _ => ⟨ht, by simp [ht]⟩⟩

theorem copyHistFn_ok (fuel : Nat) (f f2 : Decomp) (fl : Bool)
    (hh1 : f.hist.length = maxHist) (hh2 : f.hw ≤ f.hp) (hh3 : f.hp < maxHist)
    (ht : f.toRead = []) (hs : copyHistFn fuel f = some (f2, fl)) :
    f2.woffset = f.woffset + f2.toRead.length ∧ DInv f2 ∧
      (fl = false → f2.toRead = [] ∧ f2.woffset = f.woffset) :=
  copyHistLoop_ok fuel _ f f2 fl hh1 hh2 hh3 ht hs

theorem Frame.dinv {f g : Decomp} (hF : Frame f g) (h : DInv f) : DInv g := by
  obtain ⟨hwo, htr, hhist, hhp, hhw⟩ := hF
  obtain ⟨a, b, c⟩ := h
  exact ⟨by rw [hhist]; exact a, by rw [hhp, hhw]; exact b, by rw [hhp]; exact c⟩

theorem frame_wo {f g : Decomp} (hF : Frame f g) (ht : f.toRead = []) :
    g.woffset = f.woffset + g.toRead.length := by
  rw [hF.1, hF.2.1, ht]
  rfl

theorem needBits_frame2 (n : Nat) (f f2 : Decomp) (e : Option Err)
    (h : needBits n f = (f2, e)) : Frame f f2 := by
  have hx := needBits_frame n f
  rw [h] at hx
  exact hx

theorem lengthExtra_frame (ln1 ln2 : Nat) (f1 fa : Decomp) (r : Option Err) (x : Nat)
    (h : (if 0 < ln2 then
        match needBits ln2 f1 with
        | (f, some e) => (f, some e, 0)
        | (f, none) =>
          ({ f with b := f.b >>> ln2, nb := f.nb - ln2 }, none,
           ln1 + (f.b &&& ((1 <<< ln2) - 1)))
      else (f1, none, ln1)) = (fa, r, x)) : Frame f1 fa := by
  by_cases hln : 0 < ln2
  · rw [if_pos hln] at h
    match hneed : needBits ln2 f1 with
    | (fb, some e) =>
      rw [hneed] at h
      have hFb := needBits_frame2 ln2 f1 fb _ hneed
      simp only [Prod.mk.injEq] at h
      rw [← h.1]
      exact hFb
    | (fb, none) =>
      rw [hneed] at h
      have hFb := needBits_frame2 ln2 f1 fb _ hneed
      simp only [Prod.mk.injEq] at h
      rw [← h.1]
      exact Frame.trans hFb ⟨rfl, rfl, rfl, rfl, rfl⟩
  · rw [if_neg hln] at h
    simp only [Prod.mk.injEq] at h
    rw [← h.1]
    exact Frame.refl f1

theorem checkAndCopy_ok (fuel length dist : Nat) (f f2 : Decomp) (r : Bool)
    (hD : DInv f) (ht : f.toRead = [])
    (hs : checkAndCopy fuel length dist f = some (f2, r)) :
    f2.woffset = f.woffset + f2.toRead.length ∧ DInv f2 ∧
      (r = false → f2.toRead = [] ∧ f2.woffset = f.woffset) := by
  obtain ⟨hh1, hh2, hh3⟩ := hD
  rw [checkAndCopy] at hs
  split at hs
  · simp only [Option.some.injEq, Prod.mk.injEq] at hs
    obtain ⟨hf2, hr⟩ := hs
    subst hf2
    subst hr
    exact ⟨by simp [ht], ⟨hh1, hh2, hh3⟩, fun hc => by simp at hc⟩
  · split at hs
    · simp only [Option.some.injEq, Prod.mk.injEq] at hs
      obtain ⟨hf2, hr⟩ := hs
      subst hf2
      subst hr
      exact ⟨by simp [ht], ⟨hh1, hh2, hh3⟩, fun hc => by simp at hc⟩
    · have hch := copyHistFn_ok fuel _ f2 r (by simp only [hh1]) (by simp only []; omega)
        (by simp only []; omega) (by simp only [ht]) hs
      exact ⟨hch.1, hch.2.1, hch.2.2⟩

theorem huffmanBlockLoop_ok (fuel : Nat) : ∀ f f2,
    DInv f → f.toRead = [] → huffmanBlockLoop fuel f = some f2 →
    f2.woffset = f.woffset + f2.toRead.length ∧ DInv f2 := by
  induction fuel with
  | zero => intro f f2 _ _ hs; simp [huffmanBlockLoop] at hs
  | succ m ih =>
    intro f f2 hD ht hs
    obtain ⟨hh1, hh2, hh3⟩ := hD
    rw [huffmanBlockLoop] at hs
    match hres : resolveRef f f.hl with
    | none => rw [hres] at hs; simp at hs
    | some hlT =>
      rw [hres] at hs
      simp only [] at hs
      match hhs : huffSym m hlT f with
      | none => rw [hhs] at hs; simp at hs
      | some (f1, .error e) =>
        rw [hhs] at hs
        have hF := huffSym_frame m hlT f f1 _ hhs
        simp only [Option.some.injEq] at hs
        subst hs
        exact ⟨frame_wo hF ht, Frame.dinv hF ⟨hh1, hh2, hh3⟩⟩
      | some (f1, .ok v) =>
        rw [hhs] at hs
        have hF := huffSym_frame m hlT f f1 _ hhs
        simp only [] at hs
        split at hs
        · rename_i hv
          split at hs
          · rename_i hfull
            simp only [Option.some.injEq] at hs
            subst hs
            constructor
            · rw [← hF.1]
              exact (flushD_ok _ _ (by simp only [List.length_set, hF.2.2.1, hh1])
                (by simp only [hF.2.2.2.1, hF.2.2.2.2]; omega)
                (by simp only [] at hfull ⊢; omega)).1
            · exact (flushD_ok _ _ (by simp only [List.length_set, hF.2.2.1, hh1])
                (by simp only [hF.2.2.2.1, hF.2.2.2.2]; omega)
                (by simp only [] at hfull ⊢; omega)).2
          · rename_i hnfull
            have hrec := ih _ _ ⟨by simp only [List.length_set, hF.2.2.1, hh1],
              by simp only [hF.2.2.2.1, hF.2.2.2.2]; omega,
              by simp only [hF.2.2.2.1] at hnfull ⊢; omega⟩
              (by simp only [hF.2.1, ht]) hs
            exact ⟨by rw [← hF.1]; exact hrec.1, hrec.2⟩
        · split at hs
          · simp only [Option.some.injEq] at hs
            subst hs
            exact ⟨frame_wo hF ht, Frame.dinv hF ⟨hh1, hh2, hh3⟩⟩
          · split at hs
            · rename_i fa e x heq
              have hFa := Frame.trans hF (lengthExtra_frame _ _ _ _ _ _ heq)
              simp only [Option.some.injEq] at hs
              subst hs
              exact ⟨frame_wo hFa ht, Frame.dinv hFa ⟨hh1, hh2, hh3⟩⟩
            · rename_i fa length heq
              have hFa := Frame.trans hF (lengthExtra_frame _ _ _ _ _ _ heq)
              match hdd : decodeDist m fa with
              | none => rw [hdd] at hs; simp at hs
              | some (fb, .error e) =>
                rw [hdd] at hs
                have hFb := Frame.trans hFa (decodeDist_frame m fa fb _ hdd)
                simp only [Option.some.injEq] at hs
                subst hs
                exact ⟨frame_wo hFb ht, Frame.dinv hFb ⟨hh1, hh2, hh3⟩⟩
              | some (fb, .ok dist) =>
                rw [hdd] at hs
                simp only [] at hs
                have hFb := Frame.trans hFa (decodeDist_frame m fa fb _ hdd)
                match hcc : checkAndCopy m length dist fb with
                | none => rw [hcc] at hs; simp at hs
                | some (fc, true) =>
                  rw [hcc] at hs
                  have hcco := checkAndCopy_ok m length dist fb fc true
                    (Frame.dinv hFb ⟨hh1, hh2, hh3⟩) (by rw [hFb.2.1, ht]) hcc
                  simp only [Option.some.injEq] at hs
                  subst hs
                  refine ⟨?_, hcco.2.1⟩
                  rw [hcco.1, hFb.1]
                | some (fc, false) =>
                  rw [hcc] at hs
                  have hcco := checkAndCopy_ok m length dist fb fc false
                    (Frame.dinv hFb ⟨hh1, hh2, hh3⟩) (by rw [hFb.2.1, ht]) hcc
                  have hrec := ih _ _ hcco.2.1 (hcco.2.2 rfl).1 hs
                  refine ⟨?_, hrec.2⟩
                  rw [hrec.1, (hcco.2.2 rfl).2, hFb.1]

theorem readFull_take_len (n : Nat) (inp : List Nat) : (readFull n inp).1.length ≤ n := by
  simp [readFull, List.length_take]

theorem readFull_nr (n : Nat) (inp : List Nat) :
    (readFull n inp).2.2.1 = (readFull n inp).1.length := rfl

theorem copyHuffFn_ok (fuel : Nat) (f f2 : Decomp) (hD : DInv f) (ht : f.toRead = [])
    (hs : copyHuffFn fuel f = some f2) :
    f2.woffset = f.woffset + f2.toRead.length ∧ DInv f2 := by
  obtain ⟨hh1, hh2, hh3⟩ := hD
  rw [copyHuffFn] at hs
  match hch : copyHistFn fuel f with
  | none => rw [hch] at hs; simp at hs
  | some (fa, true) =>
    rw [hch] at hs
    have hcho := copyHistFn_ok fuel f fa true hh1 hh2 hh3 ht hch
    simp only [Option.some.injEq] at hs
    subst hs
    exact ⟨hcho.1, hcho.2.1⟩
  | some (fa, false) =>
    rw [hch] at hs
    simp only [] at hs
    have hcho := copyHistFn_ok fuel f fa false hh1 hh2 hh3 ht hch
    have hrec := huffmanBlockLoop_ok fuel fa f2 hcho.2.1 (hcho.2.2 rfl).1 hs
    exact ⟨by rw [hrec.1, (hcho.2.2 rfl).2], hrec.2⟩

theorem copyDataLoop_ok (fuel : Nat) : ∀ n f f2,
    DInv f → f.toRead = [] → copyDataLoop fuel n f = some f2 →
    f2.woffset = f.woffset + f2.toRead.length ∧ DInv f2 := by
  induction fuel with
  | zero => intro n f f2 _ _ hs; simp [copyDataLoop] at hs
  | succ m ih =>
    intro n f f2 hD ht hs
    obtain ⟨hh1, hh2, hh3⟩ := hD
    rw [copyDataLoop] at hs
    by_cases hn : 0 < n
    · rw [if_pos hn] at hs
      simp only [] at hs
      have htk := readFull_take_len (min (maxHist - f.hp) n) f.input
      have hsl : (setSeg f.hist f.hp (readFull (min (maxHist - f.hp) n) f.input).1).length
          = f.hist.length := setSeg_length _ _ _ (by rw [hh1]; omega)
      split at hs
      · simp only [Option.some.injEq] at hs
        subst hs
        refine ⟨by simp [ht], ?_, ?_, ?_⟩
        · simp only [hsl, hh1]
        · simpa using hh2
        · simpa using hh3
      · rw [readFull_nr] at hs
        split at hs
        · rename_i hfull
          simp only [Option.some.injEq] at hs
          subst hs
          constructor
          · exact (flushD_ok _ _ (by simp only [hsl, hh1])
              (by simp only []; omega)
              (by simp only [] at hfull ⊢; omega)).1
          · exact (flushD_ok _ _ (by simp only [hsl, hh1])
              (by simp only []; omega)
              (by simp only [] at hfull ⊢; omega)).2
        · rename_i hnfull
          have hrec := ih _ _ _ ⟨by simp only [hsl, hh1],
            by simp only []; omega,
            by simp only [] at hnfull ⊢; omega⟩
            (by simp only [ht]) hs
          exact ⟨hrec.1, hrec.2⟩
    · rw [if_neg hn] at hs
      simp only [Option.some.injEq] at hs
      subst hs
      exact ⟨by simp [ht], ⟨hh1, hh2, hh3⟩⟩

theorem dataBlockFn_ok (fuel : Nat) (f f2 : Decomp) (hD : DInv f) (ht : f.toRead = [])
    (hs : dataBlockFn fuel f = some f2) :
    f2.woffset = f.woffset + f2.toRead.length ∧ DInv f2 := by
  obtain ⟨hh1, hh2, hh3⟩ := hD
  rw [dataBlockFn] at hs
  simp only [] at hs
  split at hs
  · simp only [Option.some.injEq] at hs
    subst hs
    exact ⟨by simp [ht], by simpa using hh1, by simpa using hh2, by simpa using hh3⟩
  · split at hs
    · simp only [Option.some.injEq] at hs
      subst hs
      exact ⟨by simp [ht], by simpa using hh1, by simpa using hh2, by simpa using hh3⟩
    · split at hs
      · simp only [Option.some.injEq] at hs
        subst hs
        constructor
        · exact (flushD_ok _ _ (by simpa using hh1) (by simpa using hh2)
            (by simp only []; omega)).1
        · exact (flushD_ok _ _ (by simpa using hh1) (by simpa using hh2)
            (by simp only []; omega)).2
      · have hrec := copyDataLoop_ok fuel _ _ f2 ⟨by simpa using hh1,
          by simpa using hh2, by simpa using hh3⟩ (by simp only [ht]) hs
        exact ⟨hrec.1, hrec.2⟩

theorem nextBlockFn_ok (fuel : Nat) (f f2 : Decomp) (hD : DInv f) (ht : f.toRead = [])
    (hs : nextBlockFn fuel f = some f2) :
    f2.woffset = f.woffset + f2.toRead.length ∧ DInv f2 := by
  obtain ⟨hh1, hh2, hh3⟩ := hD
  rw [nextBlockFn] at hs
  by_cases hfin : f.final
  · rw [if_pos hfin] at hs
    split at hs
    · simp only [Option.some.injEq] at hs
      subst hs
      exact flushD_ok _ _ hh1 hh2 (by omega)
    · simp only [Option.some.injEq] at hs
      subst hs
      exact ⟨by simp [ht], ⟨hh1, hh2, hh3⟩⟩
  · rw [if_neg hfin] at hs
    match hneed : needBits 3 f with
    | (f1, some e) =>
      rw [hneed] at hs
      have hF := needBits_frame2 3 f f1 _ hneed
      simp only [Option.some.injEq] at hs
      subst hs
      exact ⟨frame_wo hF ht, Frame.dinv hF ⟨hh1, hh2, hh3⟩⟩
    | (f1, none) =>
      rw [hneed] at hs
      have hF := needBits_frame2 3 f f1 _ hneed
      simp only [] at hs
      split at hs
      · have hrec := dataBlockFn_ok fuel _ f2 (by exact Frame.dinv hF ⟨hh1, hh2, hh3⟩)
          (by simp only [hF.2.1, ht]) hs
        exact ⟨by rw [← hF.1]; exact hrec.1, hrec.2⟩
      · split at hs
        · have hrec := huffmanBlockLoop_ok fuel _ f2 (by exact Frame.dinv hF ⟨hh1, hh2, hh3⟩)
            (by simp only [hF.2.1, ht]) hs
          exact ⟨by rw [← hF.1]; exact hrec.1, hrec.2⟩
        · split at hs
          · split at hs
            · simp at hs
            · rename_i fa e hrh
              have hfr := readHuffmanFn_frame fuel _ fa _ hrh
              have hFa := Frame.trans hF
                (Frame.trans ⟨rfl, rfl, rfl, rfl, rfl⟩ hfr)
              simp only [Option.some.injEq] at hs
              subst hs
              exact ⟨frame_wo hFa ht, Frame.dinv hFa ⟨hh1, hh2, hh3⟩⟩
            · rename_i fa hrh
              have hfr := readHuffmanFn_frame fuel _ fa _ hrh
              have hFa := Frame.trans hF
                (Frame.trans ⟨rfl, rfl, rfl, rfl, rfl⟩ hfr)
              have hrec := huffmanBlockLoop_ok fuel _ f2 (by exact Frame.dinv hFa ⟨hh1, hh2, hh3⟩)
                (by simp only [hFa.2.1, ht]) hs
              exact ⟨by rw [← hFa.1]; exact hrec.1, hrec.2⟩
          · simp only [Option.some.injEq] at hs
            subst hs
            exact ⟨frame_wo hF ht, Frame.dinv hF ⟨hh1, hh2, hh3⟩⟩

theorem runStep_ok (fuel : Nat) (f f2 : Decomp) (hD : DInv f) (ht : f.toRead = [])
    (hs : runStep fuel f = some f2) :
    f2.woffset = f.woffset + f2.toRead.length ∧ DInv f2 := by
  rw [runStep] at hs
  match hstep : f.step with
  | .nextBlockTag => rw [hstep] at hs; exact nextBlockFn_ok fuel f f2 hD ht hs
  | .huffmanBlockTag => rw [hstep] at hs; exact huffmanBlockLoop_ok fuel f f2 hD ht hs
  | .copyHuffTag => rw [hstep] at hs; exact copyHuffFn_ok fuel f f2 hD ht hs
  | .copyDataTag => rw [hstep] at hs; exact copyDataLoop_ok fuel f.copyLen f f2 hD ht hs

theorem readBlock_drv (fuel : Nat) : ∀ f f2 b e,
    DInv f → readBlock fuel f = some (f2, b, e) →
    f2.woffset + f.toRead.length = f.woffset + b.length ∧ f2.toRead = [] ∧ DInv f2 := by
  induction fuel with
  | zero => intro f f2 b e _ hs; simp [readBlock] at hs
  | succ m ih =>
    intro f f2 b e hD hs
    rw [readBlock] at hs
    by_cases ht : f.toRead ≠ []
    · rw [if_pos ht] at hs
      simp only [Option.some.injEq, Prod.mk.injEq] at hs
      obtain ⟨h1, h2, h3⟩ := hs
      subst h1
      subst h2
      exact ⟨by simp, rfl, hD⟩
    · rw [if_neg ht] at hs
      push_neg at ht
      match herr : f.err with
      | some e0 =>
        rw [herr] at hs
        simp only [Option.some.injEq, Prod.mk.injEq] at hs
        obtain ⟨h1, h2, h3⟩ := hs
        subst h1
        subst h2
        exact ⟨by simp [ht], ht, hD⟩
      | none =>
        rw [herr] at hs
        match hrs : runStep m f with
        | none => rw [hrs] at hs; simp at hs
        | some f1 =>
          rw [hrs] at hs
          have hso := runStep_ok m f f1 hD ht hrs
          have hrec := ih f1 f2 b e hso.2 hs
          refine ⟨?_, hrec.2.1, hrec.2.2⟩
          rw [ht]
          simp only [List.length_nil, Nat.add_zero]
          omega

theorem gzReadBlock_drv (fuel : Nat) (z z2 : GzReader) (b : List Nat) (e : Option Err)
    (ht : z.flate.toRead = []) (hD : DInv z.flate)
    (hs : gzReadBlock fuel z = some (z2, b, e)) :
    z2.flate.woffset = z.flate.woffset + b.length ∧ z2.flate.toRead = [] ∧
      DInv z2.flate := by
  rw [gzReadBlock] at hs
  match herr : z.err with
  | some e0 =>
    rw [herr] at hs
    simp only [Option.some.injEq, Prod.mk.injEq] at hs
    obtain ⟨h1, h2, h3⟩ := hs
    subst h1
    subst h2
    exact ⟨by simp, ht, hD⟩
  | none =>
    rw [herr] at hs
    match hrb : readBlock fuel z.flate with
    | none => rw [hrb] at hs; simp at hs
    | some (f, b1, e1) =>
      rw [hrb] at hs
      have hdrv := readBlock_drv fuel z.flate f b1 e1 hD hrb
      have hwo : f.woffset = z.flate.woffset + b1.length := by
        have := hdrv.1
        rw [ht] at this
        simpa using this
      simp only [] at hs
      split at hs
      · simp only [Option.some.injEq, Prod.mk.injEq] at hs
        obtain ⟨h1, h2, h3⟩ := hs
        subst h1
        subst h2
        exact ⟨hwo, hdrv.2.1, hdrv.2.2⟩
      · rename_i hcond
        have hb1 : b1.length = 0 := by
          by_contra hb
          exact hcond (Or.inl hb)
        split at hs
        · simp only [Option.some.injEq, Prod.mk.injEq] at hs
          obtain ⟨h1, h2, h3⟩ := hs
          subst h1
          subst h2
          refine ⟨by simp only [List.length_nil]; omega, by simpa using hdrv.2.1, ?_⟩
          obtain ⟨d1, d2, d3⟩ := hdrv.2.2
          exact ⟨by simpa using d1, by simpa using d2, by simpa using d3⟩
        · split at hs
          · simp only [Option.some.injEq, Prod.mk.injEq] at hs
            obtain ⟨h1, h2, h3⟩ := hs
            subst h1
            subst h2
            refine ⟨by simp only [List.length_nil]; omega, by simpa using hdrv.2.1, ?_⟩
            obtain ⟨d1, d2, d3⟩ := hdrv.2.2
            exact ⟨by simpa using d1, by simpa using d2, by simpa using d3⟩
          · simp only [Option.some.injEq, Prod.mk.injEq] at hs
            obtain ⟨h1, h2, h3⟩ := hs
            subst h1
            subst h2
            refine ⟨by simp only [List.length_nil]; omega, by simpa using hdrv.2.1, ?_⟩
            obtain ⟨d1, d2, d3⟩ := hdrv.2.2
            exact ⟨by simpa using d1, by simpa using d2, by simpa using d3⟩

theorem readSpan_drv (fuel : Nat) : ∀ z buf z2 b,
    z.flate.toRead = [] → DInv z.flate →
    readSpan fuel z buf = some (z2, b, none) →
    z2.flate.woffset + buf.length = z.flate.woffset + b.length ∧ span ≤ b.length ∧
      z2.flate.toRead = [] ∧ DInv z2.flate := by
  induction fuel with
  | zero => intro z buf z2 b _ _ hs; simp [readSpan] at hs
  | succ m ih =>
    intro z buf z2 b ht hD hs
    rw [readSpan] at hs
    by_cases hlt : buf.length < span
    · rw [if_pos hlt] at hs
      match hgz : gzReadBlock m z with
      | none => rw [hgz] at hs; simp at hs
      | some (z1, block, some e) => rw [hgz] at hs; simp at hs
      | some (z1, block, none) =>
        rw [hgz] at hs
        simp only [] at hs
        have hgd := gzReadBlock_drv m z z1 block none ht hD hgz
        have hrec := ih z1 (buf ++ block) z2 b hgd.2.1 hgd.2.2 hs
        refine ⟨?_, hrec.2.1, hrec.2.2⟩
        have hx := hrec.1
        simp only [List.length_append] at hx
        omega
    · rw [if_neg hlt] at hs
      simp only [Option.some.injEq, Prod.mk.injEq] at hs
      obtain ⟨h1, h2, _⟩ := hs
      subst h1
      subst h2
      exact ⟨rfl, by omega, ht, hD⟩

theorem buildLoop_drv (fuel : Nat) : ∀ z idx tr pts,
    z.flate.toRead = [] → DInv z.flate → idx ≠ [] →
    (idx.map Point.woffset).getLast? = some z.flate.woffset →
    List.Chain' (fun a b => a + span ≤ b) (idx.map Point.woffset) →
    buildLoop fuel z idx tr = some (.ok pts) →
    pts.head? = idx.head? ∧
      List.Chain' (fun a b => a + span ≤ b) (pts.map Point.woffset) := by
  induction fuel with
  | zero => intro z idx tr pts _ _ _ _ _ hs; simp [buildLoop] at hs
  | succ m ih =>
    intro z idx tr pts ht hD hne hlast hchain hs
    rw [buildLoop] at hs
    match hrs : readSpan m z [] with
    | none => rw [hrs] at hs; simp at hs
    | some (z1, b, some e) =>
      rw [hrs] at hs
      cases e
      case eof =>
        simp only [Option.some.injEq, Except.ok.injEq] at hs
        subst hs
        exact ⟨rfl, hchain⟩
      all_goals simp at hs
    | some (z1, b, none) =>
      rw [hrs] at hs
      simp only [] at hs
      have hsd := readSpan_drv m z [] z1 b ht hD hrs
      have hwo : z1.flate.woffset = z.flate.woffset + b.length := by
        have := hsd.1
        simpa using this
      have hrec := ih z1 (idx ++ [mkPoint z1.flate]) _ pts hsd.2.2.1 hsd.2.2.2
        (by simp) (by simp [List.getLast?_concat, mkPoint]) ?_ hs
      · refine ⟨?_, hrec.2⟩
        rw [hrec.1]
        exact List.head?_append_of_ne_nil _ hne
      · rw [List.map_append]
        rw [List.chain'_append]
        refine ⟨hchain, by simp, ?_⟩
        intro x hx y hy
        rw [hlast] at hx
        simp only [Option.mem_def, Option.some.injEq] at hx
        simp only [List.map_cons, List.map_nil, List.head?_cons, Option.mem_def,
          Option.some.injEq] at hy
        subst hx
        subst hy
        have hsp := hsd.2.1
        simp only [mkPoint]
        omega

/-- C4: every index `BuildIndex` returns starts at write offset 0, has
strictly increasing write offsets, and every gap between consecutive points
other than (possibly) the last is at least the span.  (The proof gives the
stronger fact that every gap is at least the span.) -/
theorem c4_index_monotone (file : List Nat) (fuel : Nat) (pts : List Point)
    (h : buildIndex file fuel = some (.ok pts)) :
    (pts.map Point.woffset).head? = some 0 ∧
    List.Chain' (· < ·) (pts.map Point.woffset) ∧
    ∀ k, k + 2 < pts.length → (pts.map Point.woffset).getD k 0 + span ≤
      (pts.map Point.woffset).getD (k + 1) 0 := by
  rw [buildIndex] at h
  match hgn : gzNewReader file with
  | .error e => rw [hgn] at h; simp at h
  | .ok z =>
    rw [hgn] at h
    have hz : z.flate.woffset = 0 ∧ z.flate.toRead = [] ∧ DInv z.flate := by
      rw [gzNewReader] at hgn
      match hph : parseHeader file with
      | .error e => rw [hph] at hgn; simp at hgn
      | .ok (hdr, n, rest) =>
        rw [hph] at hgn
        simp only [Except.ok.injEq] at hgn
        subst hgn
        refine ⟨rfl, rfl, ?_, ?_, ?_⟩
        · exact List.length_replicate _ _
        · exact Nat.le_refl 0
        · exact Nat.zero_lt_succ _
    have hbl := buildLoop_drv fuel z [mkPoint z.flate] 0 pts hz.2.1 hz.2.2
      (by simp) (by simp [List.getLast?_concat, mkPoint]) (by simp) h
    have hchain := hbl.2
    refine ⟨?_, ?_, ?_⟩
    · rw [List.head?_map, hbl.1]
      simp [mkPoint, hz.1]
    · exact hchain.imp (fun a b hab => by
        have hsp : 0 < span := by decide
        omega)
    · intro k hk
      rw [List.chain'_iff_get] at hchain
      have hk2 : k + 1 < (pts.map Point.woffset).length := by
        simp only [List.length_map]
        omega
      have hr := hchain k (by simp only [List.length_map]; omega)
      have hg1 : (pts.map Point.woffset).getD k 0 =
          (pts.map Point.woffset).get ⟨k, by omega⟩ := by
        rw [List.getD_eq_getElem?_getD, List.getElem?_eq_getElem (by omega)]
        rfl
      have hg2 : (pts.map Point.woffset).getD (k + 1) 0 =
          (pts.map Point.woffset).get ⟨k + 1, hk2⟩ := by
        rw [List.getD_eq_getElem?_getD, List.getElem?_eq_getElem hk2]
        rfl
      rw [hg1, hg2]
      exact hr

theorem c4_index_monotone_w :
    (([freshPoint].map Point.woffset).head? = some 0 ∧
      List.Chain' (· < ·) ([freshPoint].map Point.woffset) ∧
      ∀ k, k + 2 < [freshPoint].length → ([freshPoint].map Point.woffset).getD k 0 + span ≤
        ([freshPoint].map Point.woffset).getD (k + 1) 0) :=
  c4_index_monotone tinyFile 50 [freshPoint] (by rfl)
